import Mathlib

/-!
# Verification of the GRAIP graph-generator core

This file gives a shallow embedding, in Lean 4, of the core of the GRAIP
repository (graphlet counting, incremental count updates, degree binning,
the GRAIP driver loop, the SwapCon acceptance rule and the target sampler),
and proves or refutes the specification claims about it.

Source files embedded here:
  * `src/generator/graphlet_counts.py`
  * `src/generator/models.py`
  * `src/generator/sampling.py`
  * the graphlet configuration tables of `src/generator.py`

Real ("float") arithmetic of the source is modelled by `ℝ` where
transcendental functions (`log`, `exp`, `sqrt`) occur and by `ℚ` elsewhere;
integer counts are modelled by `ℤ`/`ℕ`.
-/

set_option maxHeartbeats 1000000
set_option maxRecDepth 4000

namespace GRAIP

/-! ## Basic utilities -/

/-- Python's `round` on rationals: round half to even (banker's rounding). -/
def pyRound (q : ℚ) : ℤ :=
  let f := ⌊q⌋
  let r := q - f
  if r < 1/2 then f
  else if 1/2 < r then f + 1
  else if Even f then f else f + 1

/-- Running partial sums starting from `s` (helper for `cumsum`). -/
def cumsumFrom {α : Type} [Add α] (s : α) : List α → List α
  | [] => []
  | x :: xs => (s + x) :: cumsumFrom (s + x) xs

/-- `np.cumsum`: the list of partial sums. -/
def cumsum {α : Type} [Add α] [Zero α] (xs : List α) : List α :=
  cumsumFrom 0 xs

/-! ## The GRAIP score function (`models.py`, lines 149-177)

The source function is

```python
def Score(P, gl, P_target, P_bounds, E_gl, bounds_gl, w):
    P_sum = np.cumsum(P[::-1])
    Pt_sum = np.cumsum(P_target[::-1])
    score_deg = w*np.sum(np.abs(P_sum-Pt_sum)/Pt_sum)/len(Pt_sum)
    score_gl = 0
    for i in range(len(gl)):
        c = gl[i]; E_c = E_gl[i]; std_c = std_gl[i]
        if E_c == 0: continue
        p = std_c/E_c
        if c == 0 and E_c > std_c:
            score_gl += np.log(0.1/E_c)/np.log(1-p)
        elif c < E_c - std_c:
            score_gl += np.log(c/E_c)/np.log(1-p)
        elif c > E_c + std_c:
            score_gl += np.log(c/E_c)/np.log(1+p)
    score_gl /= len(gl)
    if np.any(gl[E_gl==0]!=0):
        score_gl *= 10
    score = w*score_deg + (1-w)*score_gl
    return score
```

The parameters `P_bounds` and `bounds_gl` are never read by the body and are
dropped here; `std_gl` is captured from the enclosing scope of `GRAIP` and is
therefore an explicit argument here. -/

/-- One term of the `score_gl` loop of `Score`, for count `c`, mean `E` and
standard deviation `std`. -/
noncomputable def scoreGlTerm (c E std : ℝ) : ℝ :=
  open Classical in
  if E = 0 then 0
  else
    let p := std / E
    if c = 0 ∧ std < E then Real.log (0.1 / E) / Real.log (1 - p)
    else if c < E - std then Real.log (c / E) / Real.log (1 - p)
    else if E + std < c then Real.log (c / E) / Real.log (1 + p)
    else 0

/-- The `score_gl` part of `Score`: the mean of the per-graphlet terms, with
the tenfold penalty when some graphlet with zero target mean has a non-zero
count. -/
noncomputable def scoreGl (gl E_gl std_gl : List ℝ) : ℝ :=
  open Classical in
  let raw := ((gl.zip (E_gl.zip std_gl)).map
      (fun x => scoreGlTerm x.1 x.2.1 x.2.2)).sum
  let s := raw / gl.length
  if ∃ x ∈ gl.zip E_gl, x.2 = 0 ∧ x.1 ≠ 0 then s * 10 else s

/-- The GRAIP score function, embedded from `models.py` lines 149-177.
Note the weight `w` is multiplied into the local `score_deg` *and* again in
the final combination line. -/
noncomputable def Score (P gl P_target E_gl std_gl : List ℝ) (w : ℝ) : ℝ :=
  let Psum := cumsum P.reverse
  let Ptsum := cumsum P_target.reverse
  let score_deg := w * ((Psum.zip Ptsum).map (fun x => |x.1 - x.2| / x.2)).sum
      / (Ptsum.length : ℝ)
  w * score_deg + (1 - w) * scoreGl gl E_gl std_gl

/-- Modelled from the spec: `score_deg = mean_i |CDF_H[i] - CDF_target[i]| /
CDF_target[i]`, with the CDFs accumulated from the high-degree tail downward
and the sum divided by the number of bins.  This is the spec's wording of the
degree score, *without* any weight factor; it is compared against the
source-derived `Score` above. -/
noncomputable def specScoreDeg (P P_target : List ℝ) : ℝ :=
  let Psum := cumsum P.reverse
  let Ptsum := cumsum P_target.reverse
  (((Psum.zip Ptsum).map (fun x => |x.1 - x.2| / x.2)).sum) / (Ptsum.length : ℝ)

/-! ## The SwapCon acceptance rule (`models.py`, line 497)

```python
if energy_T < energy_H or (energy_T != energy_H and r < np.exp((energy_H-energy_T)/temperature)):
```
-/

/-- The acceptance condition of the SwapCon annealing loop, embedded from
`models.py` line 497. -/
def swapConAccept (energy_H energy_T r temperature : ℝ) : Prop :=
  energy_T < energy_H ∨
    (energy_T ≠ energy_H ∧ r < Real.exp ((energy_H - energy_T) / temperature))

/-- Modelled from the spec: accept exactly when `energy_T < energy_H` or
`r < exp((energy_H - energy_T)/temperature)` (so that a zero-delta proposal is
accepted whenever `r < exp 0 = 1`). -/
def specSwapAccept (energy_H energy_T r temperature : ℝ) : Prop :=
  energy_T < energy_H ∨ r < Real.exp ((energy_H - energy_T) / temperature)

/-! ## Degree binning (`models.py`, lines 16-92)

The bin/mass construction of `bin_degrees` (first pass, lines 39-63 of
`models.py`):

```python
bins = [len(deg)]
hist = []
one = 1-0.1/samples
while bins[-1] > 1:
    nodes = 0
    bin_edge = bins[-1]
    zeros = False
    while deg[bin_edge-1] == 0:
        zeros = True
        bin_edge -= 1
    if not zeros:
        while nodes < one and bin_edge > 1:
            bin_edge -= 1
            nodes += deg[bin_edge]
    bins.append(bin_edge)
    if abs(nodes-1) < 0.1/samples:
        hist.append(1)
    else:
        hist.append(nodes)
bins = np.array(bins[::-1])
hist = np.array(hist[::-1])
```

The second pass (lines 68-80) only moves entries of `bins`, and the bounds
computation (lines 84-90) only fills `bounds`; neither modifies `hist`, the
per-bin masses that the claim is about.  All indices read here are
nonnegative and in range whenever `deg` is nonempty with a non-zero last
entry (the driver passes `np.trim_zeros(E_deg, 'b')`); in the remaining
cases the source raises or loops, and this embedding reads a default `0`. -/

/-- The inner `while deg[bin_edge-1] == 0` scan: lower `bin_edge` past a
trailing run of zero-mass degrees. -/
def zeroScan (deg : List ℚ) : ℕ → ℕ
  | 0 => 0
  | be + 1 => if deg.getD be 0 = 0 then zeroScan deg be else be + 1

/-- The inner `while nodes < one and bin_edge > 1` accumulation loop:
descend from `bin_edge`, adding degree masses, until the bin holds at least
`one` or the edge reaches `1`.  Returns the final `(bin_edge, nodes)`. -/
def accumulate (deg : List ℚ) (one : ℚ) : ℕ → ℚ → ℕ × ℚ
  | 0, nodes => (0, nodes)
  | 1, nodes => (1, nodes)
  | be + 2, nodes =>
    if nodes < one then
      accumulate deg one (be + 1) (nodes + deg.getD (be + 1) 0)
    else (be + 2, nodes)

/-- The outer `while bins[-1] > 1` loop of `bin_degrees`, returning the bin
edges and masses in construction order (to be reversed).  `fuel` bounds the
number of iterations; each iteration strictly lowers the working edge
whenever `one > 0`, so `fuel = deg.length` suffices (the source loop would
not terminate otherwise). -/
def binLoop (deg : List ℚ) (one tol : ℚ) : ℕ → ℕ → List ℕ × List ℚ
  | 0, _ => ([], [])
  | fuel + 1, be =>
    if 1 < be then
      let be2 := zeroScan deg be
      let zeros := be2 ≠ be
      let step := if zeros then (be2, (0 : ℚ)) else accumulate deg one be2 0
      let entry := if |step.2 - 1| < tol then (1 : ℚ) else step.2
      let rest := binLoop deg one tol fuel step.1
      (step.1 :: rest.1, entry :: rest.2)
    else ([], [])

/-- First pass of `bin_degrees`: the reversed lists `bins` and `hist`
(`models.py` lines 39-63). -/
def binDegreesFirstPass (deg : List ℚ) (samples : ℕ) : List ℕ × List ℚ :=
  let one : ℚ := 1 - (1/10) / samples
  let tol : ℚ := (1/10) / samples
  let r := binLoop deg one tol deg.length deg.length
  (((deg.length :: r.1).reverse), r.2.reverse)

end GRAIP

namespace GRAIP

/-! ## Undirected graphs

The NetworkX `Graph` container: a list of nodes (in insertion order, which
fixes all iteration orders) and a decidable adjacency relation.  Invariants
(no self-loops, symmetry, endpoints are nodes) are carried separately in
`Graph.Wf`. -/

structure Graph where
  nodes : List ℕ
  adj : ℕ → ℕ → Bool

/-- Build a graph from a node list and an edge list. -/
def mkGraph (ns : List ℕ) (es : List (ℕ × ℕ)) : Graph where
  nodes := ns
  adj := fun u v => es.any (fun e => (e.1 == u && e.2 == v) || (e.1 == v && e.2 == u))

/-- Well-formedness of a graph: distinct nodes, symmetric irreflexive
adjacency, and edges only between nodes. -/
structure Graph.Wf (G : Graph) : Prop where
  nodup : G.nodes.Nodup
  symm : ∀ u v, G.adj u v = G.adj v u
  irrefl : ∀ u, G.adj u u = false
  adj_mem : ∀ u v, G.adj u v = true → u ∈ G.nodes ∧ v ∈ G.nodes

/-- `G.neighbors(v)`: the neighbours of `v` in node order. -/
def neighbors (G : Graph) (v : ℕ) : List ℕ :=
  G.nodes.filter (fun u => G.adj v u)

/-- `G.degree(v)`. -/
def degree (G : Graph) (v : ℕ) : ℕ :=
  (neighbors G v).length

/-- `G.number_of_nodes()`. -/
def numNodes (G : Graph) : ℕ :=
  G.nodes.length

/-- `G.edges()`: each undirected edge once, ordered by first endpoint in
node order (helper for edge enumeration). -/
def edgePairs (G : Graph) : List ℕ → List (ℕ × ℕ)
  | [] => []
  | u :: rest => ((rest.filter (fun v => G.adj u v)).map (fun v => (u, v)))
      ++ edgePairs G rest

/-- The edge list of `G`. -/
def edgeList (G : Graph) : List (ℕ × ℕ) :=
  edgePairs G G.nodes

/-- `G.number_of_edges()`. -/
def numEdges (G : Graph) : ℕ :=
  (edgeList G).length

/-- `nx.degree_histogram(G)`: entry `d` is the number of nodes of degree
`d`, up to the maximum degree. -/
def degreeHistogram (G : Graph) : List ℕ :=
  match G.nodes with
  | [] => []
  | _ =>
    let degs := G.nodes.map (degree G)
    let maxDeg := degs.foldl max 0
    (List.range (maxDeg + 1)).map (fun d => (degs.filter (fun x => x == d)).length)

/-! ### Connected components

NetworkX `connected_components` yields components by breadth-first search
from each not-yet-covered node in node order, and `max(..., key=len)`
returns the first component of maximal size. -/

/-- One expansion step of reachability: add all nodes adjacent to the
current front set. -/
def expandOnce (G : Graph) (s : List ℕ) : List ℕ :=
  s ++ G.nodes.filter (fun v => decide (v ∉ s) && s.any (fun u => G.adj u v))

/-- All nodes reachable from `v` (fixpoint of `expandOnce`, reached after at
most `|nodes| + 1` rounds). -/
def reachList (G : Graph) (v : ℕ) : List ℕ :=
  (expandOnce G)^[G.nodes.length + 1] [v]

/-- The connected component of `v`, listed in node order. -/
def componentOf (G : Graph) (v : ℕ) : List ℕ :=
  G.nodes.filter (fun u => decide (u ∈ reachList G v))

/-- The connected components of `G`, in order of their first node. -/
def componentsList (G : Graph) : List (List ℕ) :=
  G.nodes.foldl
    (fun acc v => if acc.any (fun c => v ∈ c) then acc else acc ++ [componentOf G v])
    []

/-- `nx.number_connected_components(G)`. -/
def ncc (G : Graph) : ℕ :=
  (componentsList G).length

/-- Python `max(xs, key=len)`: the first list of maximal length. -/
def maxByLen (d : List ℕ) : List (List ℕ) → List ℕ
  | [] => d
  | c :: cs => (cs.foldl (fun best x => if best.length < x.length then x else best) c)

/-- The induced subgraph of `G` on a node list `c` (`G.subgraph(c)`). -/
def induce (G : Graph) (c : List ℕ) : Graph where
  nodes := c
  adj := fun u v => G.adj u v && decide (u ∈ c) && decide (v ∈ c)

/-- `G.subgraph(max(nx.connected_components(G), key=len))`: the largest
connected component of `G` as a graph. -/
def lcc (G : Graph) : Graph :=
  induce G (maxByLen [] (componentsList G))

/-- Reachability as a proposition: the reflexive-transitive closure of
adjacency. -/
def ReachP (G : Graph) (u v : ℕ) : Prop :=
  Relation.ReflTransGen (fun a b => G.adj a b = true) u v

/-- A graph is connected when all its nodes are mutually reachable through
its own adjacency. -/
def ConnectedGraph (G : Graph) : Prop :=
  ∀ u ∈ G.nodes, ∀ v ∈ G.nodes, ReachP G u v

/-! ## The three-node graphlet counter (`graphlet_counts.py`, lines 81-104)

```python
wedge = 0
triangle = 0
for n1 in G.nodes():
    for n2, n3 in combinations(G.neighbors(n1), 2):
        if n3 in G.neighbors(n2):
            triangle += 1
        else:
            wedge += 1
return np.array([wedge, triangle//3])
```
-/

/-- `itertools.combinations(l, 2)` in order. -/
def pairsOf : List ℕ → List (ℕ × ℕ)
  | [] => []
  | x :: xs => (xs.map (fun y => (x, y))) ++ pairsOf xs

/-- The three-node graphlet counter `three_counts`: the induced wedge and
triangle counts (the triangle tally is divided by 3 at the end; both tallies
are nonnegative, so Python floor division agrees with `Int` division). -/
def three_counts (G : Graph) : List ℤ :=
  let wt := G.nodes.foldl
    (fun (wt : ℤ × ℤ) n1 =>
      (pairsOf (neighbors G n1)).foldl
        (fun (wt : ℤ × ℤ) p =>
          if G.adj p.1 p.2 then (wt.1, wt.2 + 1) else (wt.1 + 1, wt.2))
        wt)
    (0, 0)
  [wt.1, wt.2 / 3]

/-! ## The GRAIP connectivity sweep (`models.py`, lines 346-352)

```python
if steps%round(E_e) == 0:
    if nx.number_connected_components(H) > 1:
        H = H.subgraph(max(nx.connected_components(H), key=len)).copy()
        N = H.number_of_nodes()
        gl = count_func(H)
        P = custom_degree_histogram(nx.degree_histogram(H), bins)/N
        score = Score(P, gl, P_target, P_bounds, E_gl, bounds_gl, w)
```

`P` and `score` are locals of the loop body: the recomputed histogram and
score are discarded (the stored state `deg_hist` and `H_score` are not
assigned), while `H`, `N` and `gl` are updated. -/

/-- The mutable driver state of the GRAIP main loop that the connectivity
sweep can touch. -/
structure GraipState where
  H : Graph
  N : ℕ
  gl : List ℤ
  deg_hist : List ℕ
  H_score : ℝ

/-- The body of the connectivity sweep (`models.py` lines 347-352): when `H`
is disconnected, replace it by its largest connected component and recompute
`N` and `gl`; `deg_hist` and `H_score` are left as they are (the recomputed
histogram and score go into the discarded locals `P` and `score`). -/
def connectivitySweep (count_func : Graph → List ℤ) (st : GraipState) : GraipState :=
  if 1 < ncc st.H then
    let H2 := lcc st.H
    { H := H2, N := numNodes H2, gl := count_func H2,
      deg_hist := st.deg_hist, H_score := st.H_score }
  else st

/-- The guarded sweep as it appears in the loop: it fires on iterations
whose step counter is divisible by `round(E_e)`. -/
def sweepAt (count_func : Graph → List ℤ) (E_e : ℚ) (steps : ℕ)
    (st : GraipState) : GraipState :=
  if (steps : ℤ) % pyRound E_e = 0 then connectivitySweep count_func st else st

/-- A concrete driver state for exercising the sweep: a triangle `0,1,2`
plus a separate edge `3-4`, with the stored histogram and graphlet vector
taken from the full (disconnected) graph. -/
def sweepTestState : GraipState :=
  let G := mkGraph [0, 1, 2, 3, 4] [(0, 1), (0, 2), (1, 2), (3, 4)]
  { H := G, N := 5, gl := three_counts G,
    deg_hist := degreeHistogram G, H_score := 0 }

/-! ## The GRAIP main loop: step counting, exit test and return value
(`models.py`, lines 229-371)

The loop body (node / edge move proposal, accept-reject bookkeeping and the
connectivity sweep) is a parameter `body`; the embedded part is the control
flow the termination claim is about: the step counter increments by exactly
one per iteration (line 354), the exit test of line 359 runs at the end of
every iteration, and the returned graph is the largest connected component
of the final `H` (line 361). -/

/-- Consecutive bin intervals of a `np.histogram` bin-edge list; the last
interval is closed on the right. -/
def binRanges : List ℕ → List (ℕ × ℕ × Bool)
  | [] => []
  | [_] => []
  | a :: b :: rest => (a, b, rest.isEmpty) :: binRanges (b :: rest)

/-- One entry of `np.histogram(np.arange(len(dh)), bins, weights=dh)`: the
weight mass falling in `[lo, hi)` (or `[lo, hi]` for the last bin). -/
def histEntry (dh : List ℚ) (lo hi : ℕ) (closedEnd : Bool) : ℚ :=
  (((List.range dh.length).filter
      (fun d => decide (lo ≤ d) &&
        (decide (d < hi) || (closedEnd && decide (d = hi))))).map
    (fun d => dh.getD d 0)).sum

/-- `custom_degree_histogram` (`models.py` lines 95-97): re-bin a degree
histogram onto the bin edges. -/
def customDegreeHistogram (dh : List ℚ) (bins : List ℕ) : List ℚ :=
  (binRanges bins).map (fun r => histEntry dh r.1 r.2.1 r.2.2)

/-- Elementwise `np.all(center - bound <= xs) and np.all(xs <= center +
bound)` over aligned lists. -/
def withinBounds (xs center bound : List ℚ) : Bool :=
  (xs.zip (center.zip bound)).all
    (fun p => decide (p.2.1 - p.2.2 ≤ p.1) && decide (p.1 ≤ p.2.1 + p.2.2))

/-- The tolerance part of the GRAIP exit test (`models.py` line 359): the
binned degree probabilities lie within `P_target ± P_bounds` and the
graphlet counts within `E_gl ± 2·std_gl` (line 196 sets
`bounds_gl = std_gl*2`).  `P` is computed from the stored histogram state
and the current node count as on line 357. -/
def graipToleranceOK (bins : List ℕ) (P_target P_bounds E_gl std_gl : List ℚ)
    (st : GraipState) : Bool :=
  let P := (customDegreeHistogram (st.deg_hist.map (fun n => (n : ℚ))) bins).map
      (fun x => x / (st.N : ℚ))
  withinBounds P P_target P_bounds &&
    withinBounds (st.gl.map (fun z => (z : ℚ))) E_gl (std_gl.map (fun s => s * 2))

/-- The full exit test (`models.py` line 359), evaluated at the end of an
iteration after which the step counter equals `steps`. -/
def graipExit (bins : List ℕ) (P_target P_bounds E_gl std_gl : List ℚ)
    (maxSteps : ℕ) (st : GraipState) (steps : ℕ) : Bool :=
  decide (maxSteps ≤ steps) ||
    graipToleranceOK bins P_target P_bounds E_gl std_gl st

/-- Default iteration budget: `round(E_e*100)` (`models.py` line 202). -/
def defaultMaxSteps (E_e : ℚ) : ℤ :=
  pyRound (E_e * 100)

/-- The state after `k` iterations of the GRAIP main loop; `body k` is the
effect of iteration `k` on the driver state (move proposal, accept/reject,
connectivity sweep).  The step counter is `k` itself: the source increments
`steps` by exactly one per iteration. -/
def graipIter (body : ℕ → GraipState → GraipState) (st0 : GraipState) :
    ℕ → GraipState
  | 0 => st0
  | k + 1 => body k (graipIter body st0 k)

/-- The loop leaves after the first iteration whose end-of-iteration exit
test succeeds (the test runs after `steps += 1`, so at least one iteration
runs). -/
def graipStoppingTime (body : ℕ → GraipState → GraipState) (st0 : GraipState)
    (bins : List ℕ) (P_target P_bounds E_gl std_gl : List ℚ)
    (maxSteps : ℕ) : ℕ :=
  Nat.find (show ∃ k, 1 ≤ k ∧
      graipExit bins P_target P_bounds E_gl std_gl maxSteps
        (graipIter body st0 k) k = true from
    ⟨max maxSteps 1, le_max_right _ _, by
      have h : maxSteps ≤ max maxSteps 1 := le_max_left _ _
      simp [graipExit, h]⟩)

/-- The graph returned by GRAIP: the largest connected component of the
final `H` (`models.py` line 361). -/
def graipReturn (body : ℕ → GraipState → GraipState) (st0 : GraipState)
    (bins : List ℕ) (P_target P_bounds E_gl std_gl : List ℚ)
    (maxSteps : ℕ) : Graph :=
  lcc ((graipIter body st0
    (graipStoppingTime body st0 bins P_target P_bounds E_gl std_gl maxSteps)).H)

/-! ## The target sampler (`sampling.py`, lines 6-116)

Each of the `N` trials keeps every edge of the probabilistic target
independently (`r <= probability` with `r = random()` uniform on `[0,1)`),
restricts to the largest connected component, and accumulates node count,
edge count, graphlet vector and degree histogram together with their
squares; the outputs are the means and the population standard deviations
`sqrt(E[x^2] - E[x]^2)`.  The stream of uniform draws is an explicit
parameter `draws` (trial index, edge index); the graphlet counter is the
explicit parameter `count_func` as in the source. -/

/-- A probabilistic target graph: an underlying graph whose edges carry a
presence probability (`G.edges[e]["probability"]`). -/
structure PGraph where
  G : Graph
  prob : ℕ → ℕ → ℚ

/-- The edges kept in one trial: edge `k` of the iteration order survives
when `draw k ≤ ` its probability (`sampling.py` lines 67-70). -/
def keptEdges (P : PGraph) (draw : ℕ → ℚ) : List (ℕ × ℕ) :=
  (((edgeList P.G).enum).filter
    (fun e => decide (draw e.1 ≤ P.prob e.2.1 e.2.2))).map (fun e => e.2)

/-- One sampling trial (`sampling.py` lines 66-72): the kept-edge graph on
the same node set, restricted to its largest connected component. -/
def trialGraph (P : PGraph) (draw : ℕ → ℚ) : Graph :=
  lcc (mkGraph P.G.nodes (keptEdges P draw))

/-- The deterministic realisation: the graph obtained when every edge is
kept, restricted to its largest connected component. -/
def detGraph (P : PGraph) : Graph :=
  lcc (mkGraph P.G.nodes (edgeList P.G))

/-- Elementwise sum of two aligned vectors. -/
def addVec (a b : List ℚ) : List ℚ :=
  a.zipWith (· + ·) b

/-- `np.ndarray.resize(n)`: truncate or zero-pad to length `n`. -/
def padTo (n : ℕ) (l : List ℚ) : List ℚ :=
  l.take n ++ List.replicate (n - l.length) 0

/-- The accumulators of the sampling loop (`sampling.py` lines 52-59). -/
structure SampleAcc where
  E_nodes : ℚ
  E_nodes_sq : ℚ
  E_edges : ℚ
  E_edges_sq : ℚ
  E_graphlets : List ℚ
  E_graphlets_sq : List ℚ
  E_degrees : List ℚ
  E_degrees_sq : List ℚ

/-- One trial added to the accumulators (`sampling.py` lines 74-89). -/
def sampleStep (P : PGraph) (count_func : Graph → List ℚ) (degLen : ℕ)
    (acc : SampleAcc) (draw : ℕ → ℚ) : SampleAcc :=
  let Gi := trialGraph P draw
  let counts := count_func Gi
  let dh := padTo degLen ((degreeHistogram Gi).map (fun n => (n : ℚ)))
  { E_nodes := acc.E_nodes + numNodes Gi
    E_nodes_sq := acc.E_nodes_sq + (numNodes Gi : ℚ) ^ 2
    E_edges := acc.E_edges + numEdges Gi
    E_edges_sq := acc.E_edges_sq + (numEdges Gi : ℚ) ^ 2
    E_graphlets := addVec acc.E_graphlets counts
    E_graphlets_sq := addVec acc.E_graphlets_sq (counts.map (fun x => x ^ 2))
    E_degrees := addVec acc.E_degrees dh
    E_degrees_sq := addVec acc.E_degrees_sq (dh.map (fun x => x ^ 2)) }

/-- The accumulators after the `N` trials of the sampling loop.  All
aligned vectors are initialised as zero vectors: length `n_gl` for the
graphlet vector and the length of the target's degree histogram for the
degree vector (`sampling.py` lines 56-59). -/
def sampleAccum (P : PGraph) (N n_gl : ℕ) (count_func : Graph → List ℚ)
    (draws : ℕ → ℕ → ℚ) : SampleAcc :=
  let degLen := (degreeHistogram P.G).length
  (List.range N).foldl (fun acc i => sampleStep P count_func degLen acc (draws i))
    { E_nodes := 0, E_nodes_sq := 0, E_edges := 0, E_edges_sq := 0,
      E_graphlets := List.replicate n_gl 0,
      E_graphlets_sq := List.replicate n_gl 0,
      E_degrees := List.replicate degLen 0,
      E_degrees_sq := List.replicate degLen 0 }

/-- The outputs of `sample`. -/
structure SampleResult where
  E_nodes : ℚ
  std_nodes : ℝ
  E_edges : ℚ
  std_edges : ℝ
  E_graphlets : List ℚ
  std_graphlets : List ℝ
  E_degrees : List ℚ
  std_degrees : List ℝ

/-- The `sample` function (`sampling.py` lines 6-116): the means and
population standard deviations of the trial statistics. -/
noncomputable def sample (P : PGraph) (N n_gl : ℕ)
    (count_func : Graph → List ℚ) (draws : ℕ → ℕ → ℚ) : SampleResult :=
  let acc := sampleAccum P N n_gl count_func draws
  let En := acc.E_nodes / N
  let Ee := acc.E_edges / N
  let Eg := acc.E_graphlets.map (fun x : ℚ => x / (N : ℚ))
  let Ed := acc.E_degrees.map (fun x : ℚ => x / (N : ℚ))
  { E_nodes := En
    std_nodes := Real.sqrt ((acc.E_nodes_sq / N - En ^ 2 : ℚ) : ℝ)
    E_edges := Ee
    std_edges := Real.sqrt ((acc.E_edges_sq / N - Ee ^ 2 : ℚ) : ℝ)
    E_graphlets := Eg
    std_graphlets := (acc.E_graphlets_sq.zip Eg).map
      (fun x => Real.sqrt ((x.1 / N - x.2 ^ 2 : ℚ) : ℝ))
    E_degrees := Ed
    std_degrees := (acc.E_degrees_sq.zip Ed).map
      (fun x => Real.sqrt ((x.1 / N - x.2 ^ 2 : ℚ) : ℝ)) }

/-! ## Bitmask codes and the incremental node update
(`graphlet_counts.py`, lines 560-669, and the configuration tables of
`generator.py`)

A `k`-node tuple is encoded as a bitmask: bit `j*(j-1)/2 + i` is set iff an
edge joins positions `i < j`.  `valid` maps each graphlet name to all codes
of its labellings; `code_to_graphlet` scans the mapping in order and
returns the first name whose code set contains the code (`None` when the
code is disconnected), after which the source looks the name up with
`graphlets.index(...)`, which raises when given `None`.  The embedding
returns `Option`: `none` models exactly that exception. -/

/-- `get_code` (`graphlet_counts.py` lines 560-567).  The source iterates
`i` outer and `j` inner; the bit positions of distinct pairs are distinct,
so the accumulated value is the same with `j` outer. -/
def get_code (G : Graph) (nodes : List ℕ) : ℕ :=
  (List.range nodes.length).foldl
    (fun code j =>
      (List.range j).foldl
        (fun code i =>
          if G.adj (nodes.getD j 0) (nodes.getD i 0)
          then code ||| 1 <<< (j * (j - 1) / 2 + i) else code)
        code)
    0

/-- `update_code` (`graphlet_counts.py` lines 572-578): extend a `k`-node
code with the edges of the newly appended last node. -/
def update_code (code : ℕ) (G : Graph) (nodes : List ℕ) : ℕ :=
  let N := nodes.length - 1
  let new_node := nodes.getLastD 0
  (List.range N).foldl
    (fun code i =>
      if G.adj new_node (nodes.getD i 0)
      then code ||| 1 <<< (N * (N - 1) / 2 + i) else code)
    code

/-- `code_to_graphlet` (`graphlet_counts.py` lines 583-586): the first
graphlet name whose code set contains the code. -/
def code_to_graphlet (valid : List (String × List ℕ)) (code : ℕ) :
    Option String :=
  (valid.find? (fun p => p.2.contains code)).map (fun p => p.1)

def graphlets3 : List String :=
  ["wedge", "triangle"]

def valid3 : List (String × List ℕ) :=
  [("wedge", [3, 5, 6]),
   ("triangle", [7])]

def graphlets4 : List String :=
  ["wedge", "triangle", "4star", "4path", "tailed_tri", "4cycle", "diamond", "4clique"]

def valid4 : List (String × List ℕ) :=
  [("wedge", [3, 5, 6]),
   ("triangle", [7]),
   ("4star", [11, 21, 38, 56]),
   ("4path", [13, 14, 19, 22, 26, 28, 35, 37, 41, 44, 49, 50]),
   ("tailed_tri", [15, 23, 27, 29, 39, 43, 46, 53, 54, 57, 58, 60]),
   ("4cycle", [30, 45, 51]),
   ("diamond", [31, 47, 55, 59, 61, 62]),
   ("4clique", [63])]

def graphlets5 : List String :=
  ["wedge", "triangle", "4star", "4path", "tailed_tri", "4cycle", "diamond", "4clique", "5star", "prong", "5path", "fork_tailed_tri", "long_tailed_tri", "double_tailed_tri", "tailed_cycle", "5cycle", "hourglass", "cobra", "stingray", "hatted_cycle", "three_wedge", "three_tri", "tailed_clique", "triangle_strip", "diamond_wedge", "wheel", "hatted_clique", "bipyramid", "5clique"]

def valid5 : List (String × List ℕ) :=
  [("wedge", [3, 5, 6]),
   ("triangle", [7]),
   ("4star", [11, 21, 38, 56]),
   ("4path", [13, 14, 19, 22, 26, 28, 35, 37, 41, 44, 49, 50]),
   ("tailed_tri", [15, 23, 27, 29, 39, 43, 46, 53, 54, 57, 58, 60]),
   ("4cycle", [30, 45, 51]),
   ("diamond", [31, 47, 55, 59, 61, 62]),
   ("4clique", [63]),
   ("5star", [75, 149, 294, 568, 960]),
   ("prong", [77, 78, 83, 85, 90, 99, 102, 105, 120, 139, 141, 147, 150, 156, 165, 166, 177, 184, 202, 212, 267, 270, 277, 278, 291, 293, 300, 306, 312, 329, 356, 401, 418, 456, 464, 480, 523, 533, 538, 540, 550, 553, 556, 561, 562, 579, 624, 645, 680, 706, 708, 736, 774, 792, 833, 836, 848, 897, 898, 904]),
   ("5path", [86, 92, 101, 108, 113, 114, 142, 154, 163, 169, 172, 178, 204, 210, 226, 228, 232, 240, 269, 275, 282, 284, 297, 305, 332, 337, 340, 344, 353, 368, 393, 394, 402, 408, 417, 424, 525, 526, 531, 534, 547, 549, 581, 582, 594, 596, 609, 612, 643, 646, 650, 652, 673, 674, 771, 773, 777, 780, 785, 786]),
   ("fork_tailed_tri", [79, 91, 107, 151, 157, 181, 203, 213, 295, 302, 310, 331, 358, 405, 422, 569, 570, 572, 587, 632, 661, 696, 806, 824, 961, 962, 964, 968, 976, 992]),
   ("long_tailed_tri", [117, 118, 124, 171, 174, 186, 227, 229, 233, 234, 241, 244, 283, 285, 313, 339, 342, 345, 346, 370, 372, 397, 398, 409, 412, 426, 428, 460, 466, 481, 527, 535, 551, 583, 589, 590, 604, 620, 628, 647, 659, 662, 666, 682, 690, 716, 722, 737, 775, 793, 803, 805, 809, 817, 844, 850, 865, 908, 914, 929]),
   ("double_tailed_tri", [87, 93, 103, 110, 121, 122, 143, 155, 167, 182, 185, 188, 205, 211, 271, 279, 299, 309, 314, 316, 334, 355, 406, 421, 457, 458, 465, 468, 482, 484, 539, 541, 555, 558, 565, 566, 602, 617, 668, 689, 707, 709, 714, 724, 744, 752, 812, 818, 835, 838, 841, 856, 868, 880, 901, 902, 913, 920, 930, 936]),
   ("tailed_cycle", [94, 109, 115, 158, 173, 179, 206, 214, 218, 220, 230, 248, 286, 301, 307, 333, 341, 357, 361, 364, 376, 395, 403, 419, 433, 434, 440, 472, 488, 496, 542, 557, 563, 595, 597, 611, 614, 625, 626, 651, 653, 677, 678, 681, 684, 710, 738, 740, 779, 782, 789, 790, 794, 796, 837, 849, 852, 899, 905, 906]),
   ("5cycle", [236, 242, 348, 369, 410, 425, 598, 613, 654, 675, 781, 787]),
   ("hourglass", [235, 245, 347, 374, 413, 430, 591, 636, 663, 698, 807, 825, 972, 978, 993]),
   ("cobra", [119, 125, 126, 175, 187, 190, 231, 249, 287, 315, 317, 343, 378, 399, 444, 461, 462, 467, 470, 473, 483, 485, 490, 500, 543, 559, 567, 605, 622, 667, 694, 711, 717, 723, 730, 732, 745, 746, 753, 756, 811, 821, 839, 846, 857, 858, 867, 873, 876, 882, 884, 903, 918, 921, 924, 933, 938, 940, 945, 946]),
   ("stingray", [95, 111, 123, 159, 183, 189, 207, 215, 219, 221, 303, 311, 318, 335, 359, 363, 366, 407, 423, 437, 438, 459, 469, 486, 571, 573, 574, 603, 619, 633, 634, 669, 693, 697, 700, 715, 725, 760, 814, 822, 826, 828, 843, 870, 888, 917, 934, 952, 963, 965, 966, 969, 970, 977, 980, 984, 994, 996, 1000, 1008]),
   ("hatted_cycle", [237, 238, 243, 246, 250, 252, 349, 350, 371, 373, 377, 380, 411, 414, 427, 429, 441, 442, 474, 476, 489, 492, 497, 498, 599, 606, 615, 621, 629, 630, 655, 670, 679, 683, 686, 691, 718, 726, 739, 741, 748, 754, 783, 791, 795, 797, 813, 819, 845, 851, 854, 860, 869, 881, 909, 910, 915, 922, 931, 937]),
   ("three_wedge", [222, 365, 435, 504, 627, 685, 742, 798, 853, 907]),
   ("three_tri", [223, 367, 439, 635, 701, 830, 971, 981, 998, 1016]),
   ("tailed_clique", [127, 191, 319, 463, 471, 487, 575, 731, 733, 761, 875, 878, 890, 949, 950, 956, 967, 985, 1002, 1012]),
   ("triangle_strip", [239, 247, 251, 253, 351, 375, 379, 382, 415, 431, 445, 446, 475, 477, 491, 494, 501, 502, 607, 623, 637, 638, 671, 695, 699, 702, 719, 727, 747, 757, 762, 764, 815, 823, 827, 829, 847, 859, 871, 886, 889, 892, 919, 925, 935, 942, 953, 954, 973, 974, 979, 982, 986, 988, 995, 997, 1001, 1004, 1009, 1010]),
   ("diamond_wedge", [254, 381, 443, 478, 493, 499, 505, 506, 508, 631, 687, 734, 743, 749, 750, 755, 758, 799, 855, 861, 862, 877, 883, 885, 911, 923, 926, 939, 941, 947]),
   ("wheel", [507, 509, 510, 751, 759, 766, 863, 887, 893, 927, 943, 955, 990, 1005, 1011]),
   ("hatted_clique", [255, 383, 447, 479, 495, 503, 639, 703, 735, 763, 765, 831, 879, 891, 894, 951, 957, 958, 975, 983, 987, 989, 999, 1003, 1006, 1013, 1014, 1017, 1018, 1020]),
   ("bipyramid", [511, 767, 895, 959, 991, 1007, 1015, 1019, 1021, 1022]),
   ("5clique", [1023])]

/-- `tuple(sorted(...))`: insertion sort of a small node tuple. -/
def insertSorted (a : ℕ) : List ℕ → List ℕ
  | [] => [a]
  | b :: l => if a ≤ b then a :: b :: l else b :: insertSorted a l

/-- Sort a node tuple ascending. -/
def sortNodes (l : List ℕ) : List ℕ :=
  l.foldr insertSorted []

/-- `delta[i] += d`. -/
def bumpAt (delta : List ℤ) (i : ℕ) (d : ℤ) : List ℤ :=
  delta.set i (delta.getD i 0 + d)

/-- `delta[graphlets.index(code_to_graphlet(valid, code))] += d`: `none`
models the exception raised when the code names no graphlet or the name is
not in the list. -/
def lookupBump (graphlets : List String) (valid : List (String × List ℕ))
    (delta : List ℤ) (code : ℕ) (d : ℤ) : Option (List ℤ) :=
  (((code_to_graphlet valid code).bind
      (fun name => graphlets.findIdx? (fun s => s == name))).map
    (fun i => bumpAt delta i d))

/-- The running state of `update_counts_node`: the delta vector and the
three visited-tuple blacklists. -/
structure NodeUpdState where
  delta : List ℤ
  bl3 : List (List ℕ)
  bl4 : List (List ℕ)
  bl5 : List (List ℕ)

/-- Depth-5 extension loop of `update_counts_node` (`graphlet_counts.py`
lines 656-667). -/
def nodeUpd5 (G : Graph) (graphlets : List String)
    (valid : List (String × List ℕ)) (n1 n2 n3 n4 : ℕ) (new4 : ℕ)
    (st : NodeUpdState) : Option NodeUpdState :=
  [n1, n2, n3, n4].foldlM
    (fun st s3 =>
      (neighbors G s3).foldlM
        (fun st n5 =>
          if n5 = n1 ∨ n5 = n2 ∨ n5 = n3 ∨ n5 = n4 then some st
          else
            let quad := sortNodes [n2, n3, n4, n5]
            if quad ∈ st.bl5 then some st
            else
              let new5 := update_code new4 G [n1, n2, n3, n4, n5]
              match lookupBump graphlets valid st.delta new5 1 with
              | none => none
              | some delta =>
                some { st with delta := delta, bl5 := quad :: st.bl5 })
        st)
    st

/-- Depth-4 extension loop of `update_counts_node` (`graphlet_counts.py`
lines 640-667). -/
def nodeUpd4 (G : Graph) (graphlets : List String)
    (valid : List (String × List ℕ)) (n1 n2 n3 : ℕ) (new3 : ℕ) (N : ℕ)
    (st : NodeUpdState) : Option NodeUpdState :=
  [n1, n2, n3].foldlM
    (fun st s2 =>
      (neighbors G s2).foldlM
        (fun st n4 =>
          if n4 = n1 ∨ n4 = n2 ∨ n4 = n3 then some st
          else
            let triplet := sortNodes [n2, n3, n4]
            if triplet ∈ st.bl4 then some st
            else
              let new4 := update_code new3 G [n1, n2, n3, n4]
              match lookupBump graphlets valid st.delta new4 1 with
              | none => none
              | some delta =>
                let st2 : NodeUpdState :=
                  { st with delta := delta, bl4 := triplet :: st.bl4 }
                if N = 8 then some st2
                else nodeUpd5 G graphlets valid n1 n2 n3 n4 new4 st2)
        st)
    st

/-- `update_counts_node` (`graphlet_counts.py` lines 592-669): the signed
count delta for adding or removing the node `n1`, or `none` when a lookup
fails (the Python code would raise). -/
def update_counts_node (G : Graph) (n1 : ℕ) (graphlets : List String)
    (valid : List (String × List ℕ)) : Option (List ℤ) := do
  let N := graphlets.length
  let st0 : NodeUpdState := ⟨List.replicate N 0, [], [], []⟩
  let final ← (neighbors G n1).foldlM
    (fun st n2 =>
      [n1, n2].foldlM
        (fun st s1 =>
          (neighbors G s1).foldlM
            (fun st n3 =>
              if n3 = n1 ∨ n3 = n2 then some st
              else
                let pair := sortNodes [n2, n3]
                if pair ∈ st.bl3 then some st
                else
                  let new3 := get_code G [n1, n2, n3]
                  match lookupBump graphlets valid st.delta new3 1 with
                  | none => none
                  | some delta =>
                    let st2 : NodeUpdState :=
                      { st with delta := delta, bl3 := pair :: st.bl3 }
                    if N = 2 then some st2
                    else nodeUpd4 G graphlets valid n1 n2 n3 new3 N st2)
            st)
        st)
    st0
  some final.delta

/-! ### Code graphs: the graph described by a bitmask -/

/-- The adjacency bit of positions `u ≠ v` in a code. -/
def codeBit (code u v : ℕ) : Bool :=
  if u < v then code.testBit (v * (v - 1) / 2 + u)
  else code.testBit (u * (u - 1) / 2 + v)

/-- A code is a *chain code* when every position after the first is
adjacent to some earlier position: exactly the shape of every tuple
enumerated by `update_counts_node`, where each appended node is a neighbour
of a tuple member.  Every chain code describes a connected graph. -/
def chainCodeB (k code : ℕ) : Bool :=
  (List.range k).all
    (fun m => (m == 0) || (List.range m).any (fun p => codeBit code p m))

/-- Whether the classification of a code succeeds: `code_to_graphlet` finds
a name and the name is present in the graphlet list. -/
def lookupOK (graphlets : List String) (valid : List (String × List ℕ))
    (code : ℕ) : Bool :=
  ((code_to_graphlet valid code).bind
    (fun name => graphlets.findIdx? (fun s => s == name))).isSome

/-- The decidable master fact for one configuration: every chain code below
the bound is classified by `valid` with a name present in `graphlets`. -/
def configCovers (graphlets : List String) (valid : List (String × List ℕ))
    (k bound : ℕ) : Bool :=
  (List.range bound).all
    (fun code => !chainCodeB k code || lookupOK graphlets valid code)

/-! ## The DAG orientation (`graphlet_counts.py`, lines 24-72)

`topological_ordering` repeatedly pops a vertex from the lowest non-empty
degree bucket, directs an edge from it to each remaining neighbour, and
lowers the neighbours' buckets.  The state mirrors the Python dictionaries:
`nbrs`/`degs` are the `neighbors`/`degrees` mappings, `degList` the list of
degree buckets, `minDegree` the rolling minimum; `dagEdges` accumulates the
directed edges and `order` records the pop (removal) order, which in the
source is implicit in the construction.  The `del neighbors[source]` of the
source has no observable effect (the entry is never read again) and is
dropped.  Degrees of processed neighbours are at least 1 while the graph is
well formed, so the truncated subtraction `deg - 1` agrees with Python. -/

/-- The bucket state of `topological_ordering`. -/
structure TOState where
  nbrs : ℕ → List ℕ
  degs : ℕ → ℕ
  degList : List (List ℕ)
  minDegree : ℕ
  dagEdges : List (ℕ × ℕ)
  order : List ℕ

/-- The `while len(deg_list[min_degree]) == 0: min_degree += 1` scan:
advance to the first non-empty bucket (the source would raise an index
error if none exists; `fuel` makes the search total). -/
def findNonempty (dl : List (List ℕ)) : ℕ → ℕ → ℕ
  | start, 0 => start
  | start, fuel + 1 =>
    if (dl.getD start []).isEmpty then findNonempty dl (start + 1) fuel
    else start

/-- The body of `for node in neighbors[source]` (`graphlet_counts.py`
lines 56-68): move `node` one bucket down, adjust `min_degree`, decrement
its degree, drop `source` from its neighbour list and record the directed
edge `source -> node`. -/
def processNeighbor (source : ℕ) (st : TOState) (node : ℕ) : TOState :=
  let deg := st.degs node
  let dl1 := st.degList.set deg ((st.degList.getD deg []).erase node)
  let dl2 := dl1.set (deg - 1) ((dl1.getD (deg - 1) []) ++ [node])
  { nbrs := fun v => if v = node then (st.nbrs node).erase source else st.nbrs v
    degs := fun v => if v = node then deg - 1 else st.degs v
    degList := dl2
    minDegree := if deg - 1 < st.minDegree then st.minDegree - 1 else st.minDegree
    dagEdges := st.dagEdges ++ [(source, node)]
    order := st.order }

/-- One iteration of the main loop (`graphlet_counts.py` lines 50-70): pop
the last vertex of the lowest non-empty bucket and process its remaining
neighbours. -/
def topoStep (st : TOState) : TOState :=
  let m := findNonempty st.degList st.minDegree st.degList.length
  let bucket := st.degList.getD m []
  let source := bucket.getLastD 0
  let st1 : TOState :=
    { st with
      degList := st.degList.set m bucket.dropLast
      minDegree := m
      order := st.order ++ [source] }
  (st.nbrs source).foldl (processNeighbor source) st1

/-- The initial bucket state for a graph. -/
def topoInit (G : Graph) : TOState :=
  let maxDeg := (G.nodes.map (degree G)).foldl max 0
  { nbrs := fun v => neighbors G v
    degs := fun v => degree G v
    degList := (List.range (maxDeg + 1)).map
      (fun d => G.nodes.filter (fun v => degree G v = d))
    minDegree :=
      match G.nodes.map (degree G) with
      | [] => 0
      | d :: ds => ds.foldl min d
    dagEdges := []
    order := [] }

/-- `topological_ordering` (`graphlet_counts.py` lines 24-72): the removal
order and the directed edge list of the DAG (whose node set is `G.nodes`). -/
def topological_ordering (G : Graph) : List ℕ × List (ℕ × ℕ) :=
  let final := topoStep^[G.nodes.length] (topoInit G)
  (final.order, final.dagEdges)

/-- The degree of `v` inside the sub-vertex-set `S`. -/
def inducedDeg (G : Graph) (S : Finset ℕ) (v : ℕ) : ℕ :=
  (S.filter (fun u => G.adj v u = true)).card

/-- The degeneracy of a graph: the largest, over the non-empty vertex
subsets `S`, of the minimum degree of the subgraph induced on `S`. -/
def degeneracy (G : Graph) : ℕ :=
  G.nodes.toFinset.powerset.sup
    (fun S => if h : S.Nonempty then S.inf' h (inducedDeg G S) else 0)

/-- The neighbour list of `v` restricted to the vertices not yet removed:
the value of `neighbors[v]` once the vertices of `popped` have all been
processed. -/
def remFilter (G : Graph) (popped : List ℕ) (v : ℕ) : List ℕ :=
  (neighbors G v).filter (fun u => decide (u ∉ popped))

/-- The position of `v` in the list `l` (its rank in a removal order). -/
def rankIn : List ℕ → ℕ → ℕ
  | [], _ => 0
  | a :: l, v => if a = v then 0 else rankIn l v + 1

/-- The invariant of the main loop of `topological_ordering`, relating the
bucket state to the list `st.order` of already removed vertices. -/
structure TOInv (G : Graph) (st : TOState) : Prop where
  sub : ∀ v ∈ st.order, v ∈ G.nodes
  nodup : st.order.Nodup
  nbrs_eq : ∀ v ∈ G.nodes, v ∉ st.order → st.nbrs v = remFilter G st.order v
  degs_eq : ∀ v ∈ G.nodes, v ∉ st.order →
    st.degs v = (remFilter G st.order v).length
  len_eq : st.degList.length = (G.nodes.map (degree G)).foldl max 0 + 1
  bucket_mem : ∀ d v, v ∈ st.degList.getD d [] ↔
    (v ∈ G.nodes ∧ v ∉ st.order ∧ st.degs v = d)
  bucket_nodup : ∀ d, (st.degList.getD d []).Nodup
  min_empty : ∀ d, d < st.minDegree → st.degList.getD d [] = []
  edges_iff : ∀ a b, ((a, b) ∈ st.dagEdges ↔
    (G.adj a b = true ∧ a ∈ st.order ∧
      (b ∈ st.order → rankIn st.order a < rankIn st.order b)))
  edges_nodup : st.dagEdges.Nodup
  outdeg_le : ∀ a,
    (st.dagEdges.filter (fun e => decide (e.1 = a))).length ≤ degeneracy G

/-- The invariant of the inner neighbour loop of `topological_ordering`
while `source` is being removed: the vertices of `todo` still hold their
stale state (with `source` not yet erased), all others are up to date. -/
structure TOMid (G : Graph) (popped : List ℕ) (source : ℕ) (E0 : List (ℕ × ℕ))
    (done todo : List ℕ) (σ : TOState) : Prop where
  order_eq : σ.order = popped ++ [source]
  stale : ∀ v ∈ todo, σ.nbrs v = remFilter G popped v ∧
    σ.degs v = (remFilter G popped v).length
  fresh : ∀ v ∈ G.nodes, v ∉ popped ++ [source] → v ∉ todo →
    σ.nbrs v = remFilter G (popped ++ [source]) v ∧
    σ.degs v = (remFilter G (popped ++ [source]) v).length
  len_eq : σ.degList.length = (G.nodes.map (degree G)).foldl max 0 + 1
  bucket_mem : ∀ d v, v ∈ σ.degList.getD d [] ↔
    (v ∈ G.nodes ∧ v ∉ popped ++ [source] ∧ σ.degs v = d)
  bucket_nodup : ∀ d, (σ.degList.getD d []).Nodup
  min_empty : ∀ d, d < σ.minDegree → σ.degList.getD d [] = []
  edges_eq : σ.dagEdges = E0 ++ done.map (fun b => (source, b))

/-! ## Theorems -/

/-- Helper: evaluating the penalty-free branch of `scoreGl` on singletons. -/
theorem scoreGl_single_inactive (c E std : ℝ) (hE : E ≠ 0)
    (h0 : ¬ (c = 0 ∧ std < E)) (h1 : ¬ c < E - std) (h2 : ¬ E + std < c)
    (hpen : ¬ (E = 0 ∧ c ≠ 0)) :
    scoreGl [c] [E] [std] = 0 := by
  simp only [scoreGl, List.zip, scoreGlTerm]
  rw [if_neg]
  · simp only [List.zipWith, List.map, List.sum_cons, List.sum_nil]
    rw [if_neg hE]
    simp only [if_neg h0, if_neg h1, if_neg h2]
    norm_num
  · intro h
    simp only [List.zipWith, List.mem_cons, List.not_mem_nil, or_false] at h
    obtain ⟨x, hx, h⟩ := h
    rw [hx] at h
    exact hpen h

end GRAIP

namespace GRAIP

/-- Helper: the algebraic decomposition of `Score` into the spec's mean CDF
deviation and the graphlet score. -/
theorem Score_factored (P gl P_target E_gl std_gl : List ℝ) (w : ℝ) :
    Score P gl P_target E_gl std_gl w
      = w * (w * specScoreDeg P P_target) + (1 - w) * scoreGl gl E_gl std_gl := by
  simp only [Score, specScoreDeg]
  ring

/-- C3 (amended): the value returned by the GRAIP score function equals
`w * (w * score_deg) + (1 - w) * score_gl`, where `score_deg` is the mean
relative survival-CDF deviation of the spec: the weight `w` multiplies the
degree term twice (once inside the local `score_deg` and once in the final
combination), not once. -/
theorem Score_eq_double_weighted (P gl P_target E_gl std_gl : List ℝ) (w : ℝ) :
    Score P gl P_target E_gl std_gl w
      = w * (w * specScoreDeg P P_target) + (1 - w) * scoreGl gl E_gl std_gl :=
  Score_factored P gl P_target E_gl std_gl w

/-- C3 (counterexample): at `P = [2]`, `P_target = [1]`, `gl = E_gl = [5]`,
`std_gl = [1]`, `w = 2/3`, the score returned by the code is `4/9`, which is
not `w * score_deg + (1-w) * score_gl = 2/3`: the claimed single application
of the weight to the degree term fails on the code. -/
theorem Score_not_single_weighted :
    ¬ (Score [2] [5] [1] [5] [1] (2/3)
        = (2/3) * specScoreDeg [2] [1] + (1 - 2/3) * scoreGl [5] [5] [1]) := by
  have hgl : scoreGl [5] [5] [1] = 0 := by
    apply scoreGl_single_inactive <;> norm_num
  have hspec : specScoreDeg [2] [1] = 1 := by
    simp only [specScoreDeg, List.reverse_cons, List.reverse_nil, List.nil_append,
      cumsum, cumsumFrom, List.zip, List.zipWith, List.map, List.sum_cons,
      List.sum_nil, List.length]
    norm_num
  rw [Score_factored, hgl, hspec]
  norm_num

end GRAIP

namespace GRAIP

/-- Helper: with equal energies the SwapCon acceptance test always fails, and
with distinct energies it agrees with the spec's rule. -/
theorem swapConAccept_characterization_helper (eH eT r T : ℝ) :
    (eT ≠ eH → (swapConAccept eH eT r T ↔ specSwapAccept eH eT r T)) ∧
      ¬ swapConAccept eH eH r T := by
  constructor
  · intro hne
    unfold swapConAccept specSwapAccept
    tauto
  · rintro (h | ⟨hne, -⟩)
    · exact lt_irrefl _ h
    · exact hne rfl

/-- C7 (amended): a SwapCon proposal is accepted exactly when
`energy_T < energy_H`, or `energy_T ≠ energy_H` and
`r < exp((energy_H - energy_T)/temperature)`; in particular a proposal with
zero energy difference is always rejected (not accepted with probability 1 as
claimed). -/
theorem swapConAccept_characterization (eH eT r T : ℝ) :
    (eT ≠ eH → (swapConAccept eH eT r T ↔ specSwapAccept eH eT r T)) ∧
      ¬ swapConAccept eH eH r T :=
  swapConAccept_characterization_helper eH eT r T

/-- C7 (witness): the characterization applied at concrete energies `1 ≠ 0`
and at the zero-delta point `1 = 1`. -/
theorem swapConAccept_characterization_witness :
    (swapConAccept 1 0 (1/2) 1 ↔ specSwapAccept 1 0 (1/2) 1) ∧
      ¬ swapConAccept 1 1 (1/2) 1 :=
  ⟨(swapConAccept_characterization 1 0 (1/2) 1).1 (by norm_num),
    (swapConAccept_characterization 1 1 (1/2) 1).2⟩

/-- C7 (counterexample): at `energy_T = energy_H = 1`, `r = 1/2`,
`temperature = 1`, the spec's acceptance rule holds (`r < exp 0 = 1`), but the
code rejects the proposal: a zero-delta proposal is not accepted with
probability `exp 0 = 1`. -/
theorem swapConAccept_zero_delta_cex :
    specSwapAccept 1 1 (1/2) 1 ∧ ¬ swapConAccept 1 1 (1/2) 1 := by
  constructor
  · right
    have : ((1:ℝ) - 1) / 1 = 0 := by norm_num
    rw [this, Real.exp_zero]
    norm_num
  · rintro (h | ⟨hne, -⟩)
    · exact lt_irrefl _ h
    · exact hne rfl

end GRAIP

namespace GRAIP

/-- Helper: the accumulation loop of `bin_degrees` stops only when the bin
mass has reached `one` or the edge has reached `1`. -/
theorem accumulate_stop (deg : List ℚ) (one : ℚ) :
    ∀ be nodes, one ≤ (accumulate deg one be nodes).2 ∨
      (accumulate deg one be nodes).1 ≤ 1 := by
  intro be
  induction be using Nat.strong_induction_on with
  | _ be ih =>
    match be with
    | 0 => intro nodes; right; simp [accumulate]
    | 1 => intro nodes; right; simp [accumulate]
    | be + 2 =>
      intro nodes
      rw [accumulate]
      split
      · exact ih (be + 1) (by omega) _
      · left
        simpa using le_of_not_lt (by assumption)

/-- Helper: every bin mass produced by the outer loop of `bin_degrees`,
except the last one produced, is either `0` (a zero-run bin) or at least
`one = 1 - tol`. -/
theorem binLoop_dropLast_bound (deg : List ℚ) (tol : ℚ) (htol : 0 ≤ tol) :
    ∀ fuel be, ∀ x ∈ ((binLoop deg (1 - tol) tol fuel be).2).dropLast,
      x = 0 ∨ 1 - tol ≤ x := by
  intro fuel
  induction fuel with
  | zero => intro be x hx; simp [binLoop] at hx
  | succ fuel ih =>
    intro be x hx
    rw [binLoop] at hx
    by_cases hbe : 1 < be
    · rw [if_pos hbe] at hx
      simp only at hx
      set be2 := zeroScan deg be with hbe2
      set step := if be2 ≠ be then (be2, (0:ℚ)) else accumulate deg (1 - tol) be2 0
        with hstep
      set entry := if |step.2 - 1| < tol then (1:ℚ) else step.2 with hentry
      rcases hrest : (binLoop deg (1 - tol) tol fuel step.1).2 with - | ⟨y, ys⟩
      · rw [hrest] at hx
        simp at hx
      · rw [hrest] at hx
        rw [List.dropLast_cons_of_ne_nil (by simp)] at hx
        rcases List.mem_cons.mp hx with hxe | hxr
      -- the head entry: show it is 0 or at least 1 - tol
        · subst hxe
          rw [hentry]
          split
          · right
            rename_i hclamp
            linarith [abs_nonneg (step.2 - 1)]
          · rw [hstep]
            split
            · left; rfl
            · -- accumulation branch: the loop stopped with enough mass,
              -- for otherwise the edge fell to 1 and the recursion is empty
              rcases accumulate_stop deg (1 - tol) be2 0 with hmass | hedge
              · right; exact hmass
              · exfalso
                have hstep1 : step.1 ≤ 1 := by
                  rw [hstep, if_neg (by assumption)]; exact hedge
                have : (binLoop deg (1 - tol) tol fuel step.1).2 = [] := by
                  cases fuel with
                  | zero => rw [binLoop]
                  | succ f => rw [binLoop, if_neg (by omega)]
                rw [this] at hrest
                exact List.noConfusion hrest
        · have := ih step.1 x (hrest ▸ hxr)
          exact this
    · rw [if_neg hbe] at hx
      simp at hx

end GRAIP

namespace GRAIP

/-- C5 (amended): in the binned degree distribution returned by
`bin_degrees`, every bin except possibly the lowest-degree one has mean mass
that is either at least `1 - 0.1/samples` or exactly `0` (bins covering a
run of zero-mass degrees are created with mass `0`, and the lowest bin keeps
whatever mass is left when the edge reaches degree `1`). -/
theorem binDegrees_mass_lower_bound (deg : List ℚ) (samples : ℕ) :
    ∀ x ∈ ((binDegreesFirstPass deg samples).2).tail,
      x = 0 ∨ 1 - (1/10)/(samples : ℚ) ≤ x := by
  intro x hx
  have htol : (0:ℚ) ≤ (1/10)/(samples : ℚ) :=
    div_nonneg (by norm_num) (Nat.cast_nonneg samples)
  simp only [binDegreesFirstPass] at hx
  rw [List.tail_reverse, List.mem_reverse] at hx
  exact binLoop_dropLast_bound deg ((1/10)/(samples : ℚ)) htol deg.length deg.length x hx

/-- C5 (witness): the mass bound applied to the zero-mass middle bin of the
histogram `[0,3,0,0,3]` with 100 samples. -/
theorem binDegrees_mass_lower_bound_witness :
    (0:ℚ) ∈ ((binDegreesFirstPass [0,3,0,0,3] 100).2).tail ∧
      ((0:ℚ) = 0 ∨ 1 - (1/10)/((100:ℕ) : ℚ) ≤ (0:ℚ)) :=
  ⟨by norm_num [binDegreesFirstPass, binLoop, zeroScan, accumulate],
   binDegrees_mass_lower_bound [0,3,0,0,3] 100 0
     (by norm_num [binDegreesFirstPass, binLoop, zeroScan, accumulate])⟩

/-- C5 (counterexample): on the mean histogram `[0,3,0,0,3]` with 100
samples, `bin_degrees` produces the bin masses `[3,0,3]`: the middle bin
(covering the zero-mass degree run 2..3) has mass `0`, far below the claimed
lower bound `1 - 0.1/100`. -/
theorem binDegrees_zero_mass_bin_cex :
    ¬ (∀ x ∈ (binDegreesFirstPass [0,3,0,0,3] 100).2,
        1 - (1/10)/100 ≤ x) := by
  intro h
  have h0 := h 0 (by norm_num [binDegreesFirstPass, binLoop, zeroScan, accumulate])
  norm_num at h0

end GRAIP

namespace GRAIP

/-- C4 (amended): on every iteration where the connectivity sweep fires
(step counter divisible by `round(E_e)`) and `H` is disconnected, `H` is
replaced by its largest connected component and the stored graphlet vector
is recomputed from scratch from the new `H`, while the stored
degree-histogram state `deg_hist` and the stored score `H_score` are both
left unchanged (the recomputed histogram and score only fill the discarded
locals `P` and `score`). -/
theorem sweep_recomputes_gl_only (count_func : Graph → List ℤ) (E_e : ℚ)
    (steps : ℕ) (st : GraipState)
    (hfire : ((steps : ℤ) % pyRound E_e = 0)) (hdis : 1 < ncc st.H) :
    (sweepAt count_func E_e steps st).H = lcc st.H ∧
    (sweepAt count_func E_e steps st).N = numNodes (lcc st.H) ∧
    (sweepAt count_func E_e steps st).gl = count_func (lcc st.H) ∧
    (sweepAt count_func E_e steps st).deg_hist = st.deg_hist ∧
    (sweepAt count_func E_e steps st).H_score = st.H_score := by
  have hdvd : pyRound E_e ∣ (steps : ℤ) := Int.dvd_of_emod_eq_zero hfire
  simp [sweepAt, connectivitySweep, hfire, hdis, hdvd]

/-- C4 (witness): the sweep frame condition at a concrete firing iteration
on a concrete disconnected state. -/
theorem sweep_recomputes_gl_only_witness :
    ((((0 : ℕ) : ℤ) % pyRound 1 = 0) ∧ 1 < ncc sweepTestState.H) ∧
    ((sweepAt three_counts 1 0 sweepTestState).H = lcc sweepTestState.H ∧
     (sweepAt three_counts 1 0 sweepTestState).N = numNodes (lcc sweepTestState.H) ∧
     (sweepAt three_counts 1 0 sweepTestState).gl = three_counts (lcc sweepTestState.H) ∧
     (sweepAt three_counts 1 0 sweepTestState).deg_hist = sweepTestState.deg_hist ∧
     (sweepAt three_counts 1 0 sweepTestState).H_score = sweepTestState.H_score) :=
  ⟨⟨by norm_num [pyRound], by decide⟩,
   sweep_recomputes_gl_only three_counts 1 0 sweepTestState
     (by norm_num [pyRound]) (by decide)⟩

/-- C4 (counterexample): on the disconnected state `sweepTestState` (a
triangle plus a separate edge) at a firing iteration, the stored
degree-histogram state after the sweep is the stale histogram `[0,2,3]` of
the old graph, not the histogram `[0,0,3]` of the new `H`: the sweep does
not recompute the stored degree-histogram state from the new `H`. -/
theorem sweep_stale_deg_hist_cex :
    ¬ ((sweepAt three_counts 1 0 sweepTestState).deg_hist
        = degreeHistogram ((sweepAt three_counts 1 0 sweepTestState).H)) := by
  have hfire : (((0 : ℕ) : ℤ) % pyRound 1 = 0) := by norm_num [pyRound]
  simp only [sweepAt, if_pos hfire]
  decide

end GRAIP

namespace GRAIP

/-! ### Reachability lemmas: `reachList` computes `ReachP` -/

/-- The front set only grows under one expansion step. -/
theorem subset_expandOnce (G : Graph) (s : List ℕ) : s ⊆ expandOnce G s :=
  fun _ hx => List.mem_append_left _ hx

/-- Everything in the expanded front is reachable if the front was. -/
theorem expandOnce_sound (G : Graph) (v : ℕ) (s : List ℕ)
    (hs : ∀ u ∈ s, ReachP G v u) :
    ∀ u ∈ expandOnce G s, ReachP G v u := by
  intro u hu
  rcases List.mem_append.mp hu with h | h
  · exact hs u h
  · have hcond := List.of_mem_filter h
    simp only [Bool.and_eq_true, decide_eq_true_eq, List.any_eq_true] at hcond
    obtain ⟨-, a, ha, hadj⟩ := hcond
    exact Relation.ReflTransGen.tail (hs a ha) hadj

/-- Soundness of the iterated expansion. -/
theorem iterate_expand_sound (G : Graph) (v : ℕ) :
    ∀ k, ∀ u ∈ (expandOnce G)^[k] [v], ReachP G v u := by
  intro k
  induction k with
  | zero =>
    intro u hu
    simp only [Function.iterate_zero_apply, List.mem_singleton] at hu
    exact hu ▸ Relation.ReflTransGen.refl
  | succ k ih =>
    intro u hu
    rw [Function.iterate_succ_apply'] at hu
    exact expandOnce_sound G v _ ih u hu

/-- The iterated front stays inside `v :: G.nodes`. -/
theorem iterate_expand_subset (G : Graph) (v : ℕ) :
    ∀ k, (expandOnce G)^[k] [v] ⊆ v :: G.nodes := by
  intro k
  induction k with
  | zero => simp [List.subset_def]
  | succ k ih =>
    rw [Function.iterate_succ_apply']
    intro u hu
    rcases List.mem_append.mp hu with h | h
    · exact ih h
    · exact List.mem_cons_of_mem _ (List.mem_of_mem_filter h)

/-- The iterated front has no duplicates. -/
theorem iterate_expand_nodup (G : Graph) (hG : G.nodes.Nodup) (v : ℕ) :
    ∀ k, ((expandOnce G)^[k] [v]).Nodup := by
  intro k
  induction k with
  | zero => simp
  | succ k ih =>
    rw [Function.iterate_succ_apply']
    refine List.Nodup.append ih (hG.filter _) ?_
    intro a ha hb
    have := List.of_mem_filter hb
    simp only [Bool.and_eq_true, decide_eq_true_eq] at this
    exact this.1 ha

/-- A strictly growing step: when expansion changes the front, the length
grows. -/
theorem expandOnce_length_lt (G : Graph) (s : List ℕ)
    (h : expandOnce G s ≠ s) :
    s.length + 1 ≤ (expandOnce G s).length := by
  by_cases ht :
      G.nodes.filter (fun v => decide (v ∉ s) && s.any (fun u => G.adj u v)) = []
  · exfalso
    apply h
    unfold expandOnce
    rw [ht, List.append_nil]
  · have : 1 ≤ (G.nodes.filter
        (fun v => decide (v ∉ s) && s.any (fun u => G.adj u v))).length := by
      rcases List.length_pos.mpr ht with h1
      omega
    simp only [expandOnce, List.length_append]
    omega

/-- As long as the iteration has not stabilised, the front length exceeds
the iteration count. -/
theorem iterate_expand_length_ge (G : Graph) (v : ℕ) :
    ∀ k, (∀ j < k, (expandOnce G)^[j+1] [v] ≠ (expandOnce G)^[j] [v]) →
      k + 1 ≤ ((expandOnce G)^[k] [v]).length := by
  intro k
  induction k with
  | zero => intro _; simp
  | succ k ih =>
    intro h
    have h1 := ih (fun j hj => h j (by omega))
    have h2 := h k (by omega)
    rw [Function.iterate_succ_apply'] at h2 ⊢
    have := expandOnce_length_lt G ((expandOnce G)^[k] [v]) h2
    omega

/-- The expansion stabilises within `|nodes|` rounds. -/
theorem exists_stable_round (G : Graph) (hG : G.nodes.Nodup) (v : ℕ) :
    ∃ j ≤ G.nodes.length,
      (expandOnce G)^[j+1] [v] = (expandOnce G)^[j] [v] := by
  by_contra h
  push_neg at h
  have hlen := iterate_expand_length_ge G v (G.nodes.length + 1)
    (fun j hj => h j (by omega))
  have hsub := iterate_expand_subset G v (G.nodes.length + 1)
  have hnd := iterate_expand_nodup G hG v (G.nodes.length + 1)
  have hle := (List.subperm_of_subset hnd hsub).length_le
  simp only [List.length_cons] at hle
  omega

/-- A stabilised iteration stays put. -/
theorem iterate_stable_propagates {α : Type} (f : α → α) (s0 : α) (j : ℕ)
    (h : f^[j+1] s0 = f^[j] s0) :
    ∀ m, j ≤ m → f^[m] s0 = f^[j] s0 := by
  intro m hm
  induction m with
  | zero =>
    have : j = 0 := by omega
    rw [this]
  | succ m ih =>
    rcases Nat.lt_or_ge j (m+1) with hlt | hge
    · have hmj : j ≤ m := by omega
      rw [Function.iterate_succ_apply', ih hmj]
      have hstep : f^[j+1] s0 = f (f^[j] s0) := Function.iterate_succ_apply' f j s0
      rw [← hstep]
      exact h
    · have : j = m + 1 := by omega
      rw [this]

/-- The reach set is a fixpoint of the expansion. -/
theorem reachList_fixed (G : Graph) (hG : G.nodes.Nodup) (v : ℕ) :
    expandOnce G (reachList G v) = reachList G v := by
  obtain ⟨j, hj, hst⟩ := exists_stable_round G hG v
  have h1 : reachList G v = (expandOnce G)^[j] [v] :=
    iterate_stable_propagates (expandOnce G) [v] j hst (G.nodes.length + 1) (by omega)
  rw [reachList] at h1 ⊢
  rw [h1]
  have hstep : (expandOnce G)^[j+1] [v] = expandOnce G ((expandOnce G)^[j] [v]) :=
    Function.iterate_succ_apply' (expandOnce G) j [v]
  rw [← hstep, hst]

/-- The reach set is closed under adjacency into the node set. -/
theorem reachList_closed (G : Graph) (hG : G.nodes.Nodup) (v : ℕ) :
    ∀ a ∈ reachList G v, ∀ b, G.adj a b = true → b ∈ G.nodes →
      b ∈ reachList G v := by
  intro a ha b hadj hb
  by_contra hnb
  have hfix := reachList_fixed G hG v
  have hflt : G.nodes.filter
      (fun x => decide (x ∉ reachList G v) &&
        (reachList G v).any (fun u => G.adj u x)) = [] := by
    have hlen := congrArg List.length hfix
    simp only [expandOnce, List.length_append] at hlen
    exact List.length_eq_zero.mp (by omega)
  have hmem := List.filter_eq_nil_iff.mp hflt b hb
  apply hmem
  simp only [Bool.and_eq_true, decide_eq_true_eq, List.any_eq_true]
  exact ⟨hnb, a, ha, hadj⟩

/-- `v` itself is in its reach set. -/
theorem self_mem_reachList (G : Graph) (v : ℕ) : v ∈ reachList G v := by
  have : ∀ k, v ∈ (expandOnce G)^[k] [v] := by
    intro k
    induction k with
    | zero => simp
    | succ k ih =>
      rw [Function.iterate_succ_apply']
      exact subset_expandOnce G _ ih
  exact this _

/-- Completeness: every node reachable from `v` is in the reach set. -/
theorem reachList_complete (G : Graph) (hwf : G.Wf) (v : ℕ) :
    ∀ u, ReachP G v u → u ∈ G.nodes → u ∈ reachList G v := by
  intro u hr
  induction hr with
  | refl => intro _; exact self_mem_reachList G v
  | tail hr hadj ih =>
    intro _
    rename_i b c _
    have hb : b ∈ G.nodes := (hwf.adj_mem _ _ hadj).1
    have hc : c ∈ G.nodes := (hwf.adj_mem _ _ hadj).2
    exact reachList_closed G hwf.nodup v b (ih hb) c hadj hc

end GRAIP

namespace GRAIP

/-! ### Connectivity of components and of the largest component -/

/-- Reachability is symmetric for a symmetric adjacency. -/
theorem reachP_symm (G : Graph) (hsym : ∀ u v, G.adj u v = G.adj v u)
    {u v : ℕ} (h : ReachP G u v) : ReachP G v u := by
  induction h with
  | refl => exact Relation.ReflTransGen.refl
  | tail _ hadj ih =>
    rename_i b c _
    exact Relation.ReflTransGen.head (by rw [hsym]; exact hadj) ih

/-- A reachability path from a component's root stays inside the induced
component subgraph. -/
theorem induce_reach (G : Graph) (hwf : G.Wf) (v : ℕ)
    {u : ℕ} (hr : ReachP G v u) :
    ReachP (induce G (componentOf G v)) v u := by
  induction hr with
  | refl => exact Relation.ReflTransGen.refl
  | @tail b c hr1 hadj ih =>
    refine Relation.ReflTransGen.tail ih ?_
    have hb : b ∈ G.nodes := (hwf.adj_mem _ _ hadj).1
    have hc : c ∈ G.nodes := (hwf.adj_mem _ _ hadj).2
    have hbr : b ∈ reachList G v := reachList_complete G hwf v b hr1 hb
    have hcr : c ∈ reachList G v :=
      reachList_complete G hwf v c (hr1.tail hadj) hc
    show (G.adj b c && decide (b ∈ componentOf G v)
        && decide (c ∈ componentOf G v)) = true
    have hbc : b ∈ componentOf G v := List.mem_filter.mpr ⟨hb, by simp [hbr]⟩
    have hcc : c ∈ componentOf G v := List.mem_filter.mpr ⟨hc, by simp [hcr]⟩
    simp [hadj, hbc, hcc]

/-- The induced adjacency of any induced subgraph is symmetric when the
parent's is. -/
theorem induce_adj_symm (G : Graph) (hsym : ∀ u v, G.adj u v = G.adj v u)
    (c : List ℕ) : ∀ u v, (induce G c).adj u v = (induce G c).adj v u := by
  intro u v
  simp only [induce]
  rw [hsym]
  rw [Bool.and_assoc, Bool.and_assoc]
  rw [Bool.and_comm (decide (u ∈ c)) (decide (v ∈ c))]

/-- The induced subgraph on a connected component is connected. -/
theorem componentOf_connected (G : Graph) (hwf : G.Wf) (v : ℕ) :
    ConnectedGraph (induce G (componentOf G v)) := by
  intro a ha b hb
  simp only [induce, componentOf, List.mem_filter, decide_eq_true_eq] at ha hb
  have hva : ReachP G v a := iterate_expand_sound G v _ a ha.2
  have hvb : ReachP G v b := iterate_expand_sound G v _ b hb.2
  have h1 : ReachP (induce G (componentOf G v)) v a := induce_reach G hwf v hva
  have h2 : ReachP (induce G (componentOf G v)) v b := induce_reach G hwf v hvb
  exact (reachP_symm _ (induce_adj_symm G hwf.symm _) h1).trans h2

/-- Every member of `componentsList` is the component of one of the nodes. -/
theorem componentsList_mem (G : Graph) :
    ∀ c ∈ componentsList G, ∃ v ∈ G.nodes, c = componentOf G v := by
  have main : ∀ (l : List ℕ) (acc : List (List ℕ)),
      (∀ c ∈ acc, ∃ v ∈ G.nodes, c = componentOf G v) → l ⊆ G.nodes →
      ∀ c ∈ l.foldl
        (fun acc v => if acc.any (fun c => v ∈ c) then acc
          else acc ++ [componentOf G v]) acc,
        ∃ v ∈ G.nodes, c = componentOf G v := by
    intro l
    induction l with
    | nil => intro acc hacc _ c hc; exact hacc c hc
    | cons x l ih =>
      intro acc hacc hsub c hc
      simp only [List.foldl_cons] at hc
      refine ih _ ?_ (fun y hy => hsub (List.mem_cons_of_mem _ hy)) c hc
      intro d hd
      by_cases hx : acc.any (fun c => decide (x ∈ c)) = true
      · rw [if_pos hx] at hd
        exact hacc d hd
      · rw [if_neg hx] at hd
        rcases List.mem_append.mp hd with h | h
        · exact hacc d h
        · rw [List.mem_singleton.mp h]
          exact ⟨x, hsub (List.mem_cons_self x l), rfl⟩
  intro c hc
  exact main G.nodes [] (by simp) (fun _ h => h) c hc

/-- `maxByLen` returns its default or one of the candidates. -/
theorem maxByLen_mem (d : List ℕ) (l : List (List ℕ)) :
    maxByLen d l = d ∨ maxByLen d l ∈ l := by
  match l with
  | [] => left; rfl
  | c :: cs =>
    right
    simp only [maxByLen]
    have main : ∀ (cs : List (List ℕ)) (best : List ℕ),
        cs.foldl (fun best x => if best.length < x.length then x else best) best
          = best ∨
        cs.foldl (fun best x => if best.length < x.length then x else best) best
          ∈ cs := by
      intro cs
      induction cs with
      | nil => intro best; left; rfl
      | cons y ys ih =>
        intro best
        simp only [List.foldl_cons]
        by_cases hy : best.length < y.length
        · rw [if_pos hy]
          rcases ih y with h | h
          · right; rw [h]; exact List.mem_cons_self y ys
          · right; exact List.mem_cons_of_mem _ h
        · rw [if_neg hy]
          rcases ih best with h | h
          · left; exact h
          · right; exact List.mem_cons_of_mem _ h
    rcases main cs c with h | h
    · rw [h]; exact List.mem_cons_self c cs
    · exact List.mem_cons_of_mem _ h

/-- The largest connected component of a well-formed graph is connected. -/
theorem lcc_connected (G : Graph) (hwf : G.Wf) : ConnectedGraph (lcc G) := by
  unfold lcc
  rcases maxByLen_mem [] (componentsList G) with h | h
  · rw [h]
    intro u hu
    simp only [induce, List.not_mem_nil] at hu
  · obtain ⟨v, -, hc⟩ := componentsList_mem G _ h
    rw [hc]
    exact componentOf_connected G hwf v

end GRAIP

namespace GRAIP

/-- Helper: graphs built by `mkGraph` from a duplicate-free node list and a
loop-free edge list over those nodes are well formed. -/
theorem mkGraph_wf (ns : List ℕ) (es : List (ℕ × ℕ))
    (hnodup : ns.Nodup)
    (hmem : ∀ e ∈ es, e.1 ∈ ns ∧ e.2 ∈ ns)
    (hloop : ∀ e ∈ es, e.1 ≠ e.2) :
    (mkGraph ns es).Wf := by
  refine ⟨hnodup, ?_, ?_, ?_⟩
  · intro u v
    simp only [mkGraph]
    rw [Bool.eq_iff_iff]
    simp only [List.any_eq_true, Bool.or_eq_true, Bool.and_eq_true, beq_iff_eq]
    constructor <;> (rintro ⟨e, he, h⟩; exact ⟨e, he, h.symm⟩)
  · intro u
    simp only [mkGraph]
    rw [List.any_eq_false]
    intro e he
    simp only [Bool.or_eq_true, Bool.and_eq_true, beq_iff_eq, not_or, not_and]
    constructor <;> (intro h1 h2; exact hloop e he (h1.trans h2.symm))
  · intro u v h
    simp only [mkGraph, List.any_eq_true, Bool.or_eq_true, Bool.and_eq_true,
      beq_iff_eq] at h
    obtain ⟨e, he, h | h⟩ := h
    · exact ⟨h.1 ▸ (hmem e he).1, h.2 ▸ (hmem e he).2⟩
    · exact ⟨h.2 ▸ (hmem e he).2, h.1 ▸ (hmem e he).1⟩

/-- Helper: a body that keeps `H` well formed keeps it well formed along the
whole iteration. -/
theorem graipIter_wf (body : ℕ → GraipState → GraipState) (st0 : GraipState)
    (hwf0 : st0.H.Wf) (hwfb : ∀ k st, st.H.Wf → (body k st).H.Wf) :
    ∀ k, (graipIter body st0 k).H.Wf := by
  intro k
  induction k with
  | zero => exact hwf0
  | succ k ih => exact hwfb k _ ih

end GRAIP

namespace GRAIP

/-- Helper: the exit test holds at the stopping time, which is at least 1. -/
theorem graipStoppingTime_spec (body : ℕ → GraipState → GraipState)
    (st0 : GraipState) (bins : List ℕ) (P_target P_bounds E_gl std_gl : List ℚ)
    (maxSteps : ℕ) :
    1 ≤ graipStoppingTime body st0 bins P_target P_bounds E_gl std_gl maxSteps ∧
    graipExit bins P_target P_bounds E_gl std_gl maxSteps
      (graipIter body st0
        (graipStoppingTime body st0 bins P_target P_bounds E_gl std_gl maxSteps))
      (graipStoppingTime body st0 bins P_target P_bounds E_gl std_gl maxSteps)
      = true := by
  unfold graipStoppingTime
  exact Nat.find_spec
    (show ∃ k, 1 ≤ k ∧ graipExit bins P_target P_bounds E_gl std_gl maxSteps
        (graipIter body st0 k) k = true from
      ⟨max maxSteps 1, le_max_right _ _, by
        have h : maxSteps ≤ max maxSteps 1 := le_max_left _ _
        simp [graipExit, h]⟩)

/-- Helper: the stopping time is minimal among exiting iterations. -/
theorem graipStoppingTime_le (body : ℕ → GraipState → GraipState)
    (st0 : GraipState) (bins : List ℕ) (P_target P_bounds E_gl std_gl : List ℚ)
    (maxSteps : ℕ) (k : ℕ) (h1 : 1 ≤ k)
    (h2 : graipExit bins P_target P_bounds E_gl std_gl maxSteps
      (graipIter body st0 k) k = true) :
    graipStoppingTime body st0 bins P_target P_bounds E_gl std_gl maxSteps ≤ k := by
  unfold graipStoppingTime
  exact Nat.find_le ⟨h1, h2⟩

end GRAIP

namespace GRAIP

/-- C8: for any loop body and any starting state with a well-formed graph
(preserved by the body), the GRAIP main loop runs at most `max_steps`
iterations (the step counter increments once per iteration and the exit
test fires as soon as it reaches `max_steps`); it stops strictly earlier
only when the tolerance test holds (every binned degree probability within
`P_target ± P_bounds` and every graphlet count within `± 2·std` of its
mean); and the returned graph, the largest connected component of the final
`H`, is connected. -/
theorem GRAIP_terminates_within_max_steps
    (body : ℕ → GraipState → GraipState) (st0 : GraipState)
    (bins : List ℕ) (P_target P_bounds E_gl std_gl : List ℚ) (maxSteps : ℕ)
    (hms : 1 ≤ maxSteps)
    (hwf0 : st0.H.Wf) (hwfb : ∀ k st, st.H.Wf → (body k st).H.Wf) :
    graipStoppingTime body st0 bins P_target P_bounds E_gl std_gl maxSteps
      ≤ maxSteps ∧
    (graipStoppingTime body st0 bins P_target P_bounds E_gl std_gl maxSteps
        < maxSteps →
      graipToleranceOK bins P_target P_bounds E_gl std_gl
        (graipIter body st0
          (graipStoppingTime body st0 bins P_target P_bounds E_gl std_gl
            maxSteps)) = true) ∧
    ConnectedGraph
      (graipReturn body st0 bins P_target P_bounds E_gl std_gl maxSteps) := by
  refine ⟨?_, ?_, ?_⟩
  · exact graipStoppingTime_le body st0 bins P_target P_bounds E_gl std_gl
      maxSteps maxSteps hms (by simp [graipExit])
  · intro hlt
    have hspec := (graipStoppingTime_spec body st0 bins P_target P_bounds
      E_gl std_gl maxSteps).2
    rw [graipExit, Bool.or_eq_true, decide_eq_true_eq] at hspec
    rcases hspec with h | h
    · omega
    · exact h
  · exact lcc_connected _
      (graipIter_wf body st0 hwf0 hwfb _)

/-- C8 (witness): the loop contract applied to the identity body on a
concrete well-formed two-component start graph with `max_steps = 1`. -/
theorem GRAIP_terminates_within_max_steps_witness :
    (1 ≤ 1 ∧ sweepTestState.H.Wf ∧
      (∀ (k : ℕ) (st : GraipState), st.H.Wf →
        (((fun _ st => st) : ℕ → GraipState → GraipState) k st).H.Wf)) ∧
    (graipStoppingTime (fun _ st => st) sweepTestState [1, 3] [1] [1] [0, 0]
        [0, 0] 1 ≤ 1 ∧
      (graipStoppingTime (fun _ st => st) sweepTestState [1, 3] [1] [1] [0, 0]
          [0, 0] 1 < 1 →
        graipToleranceOK [1, 3] [1] [1] [0, 0] [0, 0]
          (graipIter (fun _ st => st) sweepTestState
            (graipStoppingTime (fun _ st => st) sweepTestState [1, 3] [1] [1]
              [0, 0] [0, 0] 1)) = true) ∧
      ConnectedGraph
        (graipReturn (fun _ st => st) sweepTestState [1, 3] [1] [1] [0, 0]
          [0, 0] 1)) := by
  have hwf : sweepTestState.H.Wf := by
    apply mkGraph_wf <;> decide
  exact ⟨⟨le_refl 1, hwf, fun _ _ h => h⟩,
    GRAIP_terminates_within_max_steps (fun _ st => st) sweepTestState
      [1, 3] [1] [1] [0, 0] [0, 0] 1 (le_refl 1) hwf (fun _ _ h => h)⟩

end GRAIP

namespace GRAIP

/-! ### Sampler lemmas -/

/-- Helper: the largest component has at most as many nodes as the graph. -/
theorem lcc_numNodes_le (G : Graph) : numNodes (lcc G) ≤ numNodes G := by
  unfold lcc numNodes induce
  rcases maxByLen_mem [] (componentsList G) with h | h
  · rw [h]; simp
  · obtain ⟨v, -, hc⟩ := componentsList_mem G _ h
    rw [hc]
    exact List.length_filter_le _ _

/-- Helper: folding trials over any index list adds at most `|V|` nodes per
trial. -/
theorem foldl_E_nodes_le (P : PGraph) (count_func : Graph → List ℚ)
    (degLen : ℕ) (draws : ℕ → ℕ → ℚ) :
    ∀ (l : List ℕ) (acc : SampleAcc),
      (l.foldl (fun acc i => sampleStep P count_func degLen acc (draws i))
          acc).E_nodes
        ≤ acc.E_nodes + (l.length : ℚ) * numNodes P.G := by
  intro l
  induction l with
  | nil => intro acc; simp
  | cons i l ih =>
    intro acc
    rw [List.foldl_cons]
    have h2 := ih (sampleStep P count_func degLen acc (draws i))
    have h1 : (sampleStep P count_func degLen acc (draws i)).E_nodes
        = acc.E_nodes + numNodes (trialGraph P (draws i)) := rfl
    have h3 : ((numNodes (trialGraph P (draws i)) : ℕ) : ℚ)
        ≤ ((numNodes P.G : ℕ) : ℚ) := by
      have := lcc_numNodes_le (mkGraph P.G.nodes (keptEdges P (draws i)))
      unfold trialGraph
      exact_mod_cast this
    rw [h1] at h2
    simp only [List.length_cons]
    push_cast
    linarith

/-- Helper: the accumulated node count is at most `N` times the size of the
target's node set. -/
theorem sampleAccum_E_nodes_le (P : PGraph) (N n_gl : ℕ)
    (count_func : Graph → List ℚ) (draws : ℕ → ℕ → ℚ) :
    (sampleAccum P N n_gl count_func draws).E_nodes ≤ (N : ℚ) * numNodes P.G := by
  unfold sampleAccum
  have := foldl_E_nodes_le P count_func (degreeHistogram P.G).length draws
    (List.range N)
    { E_nodes := 0, E_nodes_sq := 0, E_edges := 0, E_edges_sq := 0,
      E_graphlets := List.replicate n_gl 0,
      E_graphlets_sq := List.replicate n_gl 0,
      E_degrees := List.replicate (degreeHistogram P.G).length 0,
      E_degrees_sq := List.replicate (degreeHistogram P.G).length 0 }
  simpa using this

/-- Helper: with unit edge probabilities and draws below 1, every edge is
kept. -/
theorem keptEdges_all (P : PGraph) (draw : ℕ → ℚ)
    (hdet : ∀ e ∈ edgeList P.G, P.prob e.1 e.2 = 1)
    (hdraw : ∀ j, draw j < 1) :
    keptEdges P draw = edgeList P.G := by
  unfold keptEdges
  rw [List.filter_eq_self.mpr, List.enum_map_snd]
  intro a ha
  have hmem : a.2 ∈ edgeList P.G := by
    have := List.mem_map_of_mem Prod.snd ha
    rwa [List.enum_map_snd] at this
  rw [decide_eq_true_eq]
  rw [hdet a.2 hmem]
  exact le_of_lt (hdraw a.1)

/-- Helper: with unit edge probabilities every trial produces the
deterministic realisation. -/
theorem trialGraph_det (P : PGraph) (draw : ℕ → ℚ)
    (hdet : ∀ e ∈ edgeList P.G, P.prob e.1 e.2 = 1)
    (hdraw : ∀ j, draw j < 1) :
    trialGraph P draw = detGraph P := by
  unfold trialGraph detGraph
  rw [keptEdges_all P draw hdet hdraw]

/-- Helper: a zero-scaled vector is the zero vector. -/
theorem map_zero_mul (c : List ℚ) :
    c.map (fun x => (0 : ℚ) * x) = List.replicate c.length 0 := by
  induction c with
  | nil => rfl
  | cons a c ih => simp [List.replicate_succ, ih]

/-- Helper: adding the base vector to a scaled copy bumps the scale. -/
theorem addVec_scaled (c : List ℚ) (k : ℚ) :
    addVec (c.map (fun x => k * x)) c = c.map (fun x => (k + 1) * x) := by
  induction c with
  | nil => rfl
  | cons a c ih =>
    simp only [addVec, List.map_cons, List.zipWith_cons_cons] at *
    rw [ih]
    congr 1
    ring

end GRAIP

namespace GRAIP

/-- Helper: the zero-padded resize always has the requested length. -/
theorem padTo_length (n : ℕ) (l : List ℚ) : (padTo n l).length = n := by
  simp only [padTo, List.length_append, List.length_take, List.length_replicate]
  omega

/-- Helper: closed form of the sampling accumulators for a deterministic
target (all edge probabilities `1`): every trial realises the same graph,
so each accumulator is `N` times its per-trial value. -/
theorem sampleAccum_det (P : PGraph) (N n_gl : ℕ)
    (count_func : Graph → List ℚ) (draws : ℕ → ℕ → ℚ)
    (hdet : ∀ e ∈ edgeList P.G, P.prob e.1 e.2 = 1)
    (hdraw : ∀ i j, draws i j < 1)
    (hlen : (count_func (detGraph P)).length = n_gl) :
    sampleAccum P N n_gl count_func draws =
      { E_nodes := (N : ℚ) * numNodes (detGraph P)
        E_nodes_sq := (N : ℚ) * (numNodes (detGraph P) : ℚ) ^ 2
        E_edges := (N : ℚ) * numEdges (detGraph P)
        E_edges_sq := (N : ℚ) * (numEdges (detGraph P) : ℚ) ^ 2
        E_graphlets := (count_func (detGraph P)).map (fun x => (N : ℚ) * x)
        E_graphlets_sq := ((count_func (detGraph P)).map (fun x => x ^ 2)).map
          (fun x => (N : ℚ) * x)
        E_degrees := (padTo (degreeHistogram P.G).length
          ((degreeHistogram (detGraph P)).map (fun n => (n : ℚ)))).map
          (fun x => (N : ℚ) * x)
        E_degrees_sq := ((padTo (degreeHistogram P.G).length
          ((degreeHistogram (detGraph P)).map (fun n => (n : ℚ)))).map
          (fun x => x ^ 2)).map (fun x => (N : ℚ) * x) } := by
  unfold sampleAccum
  induction N with
  | zero =>
    simp only [List.range_zero, List.foldl_nil, Nat.cast_zero]
    congr 1
    · ring
    · ring
    · ring
    · ring
    · rw [map_zero_mul, hlen]
    · rw [map_zero_mul, List.length_map, hlen]
    · rw [map_zero_mul, padTo_length]
    · rw [map_zero_mul, List.length_map, padTo_length]
  | succ N ih =>
    rw [List.range_succ, List.foldl_append, List.foldl_cons, List.foldl_nil, ih]
    simp only [sampleStep, trialGraph_det P (draws N) hdet (hdraw N)]
    congr 1
    · push_cast; ring
    · push_cast; ring
    · push_cast; ring
    · push_cast; ring
    · rw [addVec_scaled]
      push_cast
      rfl
    · rw [addVec_scaled]
      push_cast
      rfl
    · rw [addVec_scaled]
      push_cast
      rfl
    · rw [addVec_scaled]
      push_cast
      rfl

end GRAIP

namespace GRAIP

/-- Helper: zipping two maps over the same list pairs the images. -/
theorem zip_map_same {α β γ : Type} (f : α → β) (g : α → γ) (l : List α) :
    (l.map f).zip (l.map g) = l.map (fun a => (f a, g a)) := by
  induction l with
  | nil => rfl
  | cons a l ih => simp [ih]

/-- Helper: the mean node count is bounded by the target's node count. -/
theorem sample_E_nodes_le (P : PGraph) (N n_gl : ℕ)
    (count_func : Graph → List ℚ) (draws : ℕ → ℕ → ℚ) (hN : 1 ≤ N) :
    (sample P N n_gl count_func draws).E_nodes ≤ (numNodes P.G : ℚ) := by
  have hNpos : (0 : ℚ) < (N : ℚ) := by exact_mod_cast hN
  simp only [sample]
  rw [div_le_iff₀ hNpos]
  have := sampleAccum_E_nodes_le P N n_gl count_func draws
  linarith

end GRAIP

namespace GRAIP

/-- Helper: the deterministic-target conclusions of the sampler claim. -/
theorem sample_det_values (P : PGraph) (N n_gl : ℕ)
    (count_func : Graph → List ℚ) (draws : ℕ → ℕ → ℚ) (hN : 1 ≤ N)
    (hdet : ∀ e ∈ edgeList P.G, P.prob e.1 e.2 = 1)
    (hdraw : ∀ i j, draws i j < 1)
    (hlen : (count_func (detGraph P)).length = n_gl) :
    (sample P N n_gl count_func draws).E_nodes = numNodes (detGraph P) ∧
    (sample P N n_gl count_func draws).E_edges = numEdges (detGraph P) ∧
    (sample P N n_gl count_func draws).E_graphlets = count_func (detGraph P) ∧
    (sample P N n_gl count_func draws).E_degrees
      = padTo (degreeHistogram P.G).length
          ((degreeHistogram (detGraph P)).map (fun n => (n : ℚ))) ∧
    (sample P N n_gl count_func draws).std_nodes = 0 ∧
    (sample P N n_gl count_func draws).std_edges = 0 ∧
    (∀ x ∈ (sample P N n_gl count_func draws).std_graphlets, x = 0) ∧
    (∀ x ∈ (sample P N n_gl count_func draws).std_degrees, x = 0) := by
  have hN0 : ((N : ℚ)) ≠ 0 := by
    have : (0 : ℚ) < (N : ℚ) := by exact_mod_cast hN
    exact ne_of_gt this
  have hacc := sampleAccum_det P N n_gl count_func draws hdet hdraw hlen
  simp only [sample, hacc]
  refine ⟨?_, ?_, ?_, ?_, ?_, ?_, ?_, ?_⟩
  · field_simp
  · field_simp
  · rw [List.map_map]
    rw [List.map_congr_left (g := id) ?_, List.map_id]
    intro a _
    simp only [Function.comp_apply, id_eq]
    field_simp
  · rw [List.map_map]
    rw [List.map_congr_left (g := id) ?_, List.map_id]
    intro a _
    simp only [Function.comp_apply, id_eq]
    field_simp
  · have hz : ((N : ℚ) * (numNodes (detGraph P) : ℚ) ^ 2 / N
        - ((N : ℚ) * (numNodes (detGraph P) : ℚ) / N) ^ 2 : ℚ) = 0 := by
      field_simp
    rw [hz]
    simp
  · have hz : ((N : ℚ) * (numEdges (detGraph P) : ℚ) ^ 2 / N
        - ((N : ℚ) * (numEdges (detGraph P) : ℚ) / N) ^ 2 : ℚ) = 0 := by
      field_simp
    rw [hz]
    simp
  · intro x hx
    rw [List.map_map, List.map_map, zip_map_same, List.map_map] at hx
    rw [List.mem_map] at hx
    obtain ⟨a, -, ha⟩ := hx
    rw [← ha]
    have hz : ((N : ℚ) * a ^ 2 / N - ((N : ℚ) * a / N) ^ 2 : ℚ) = 0 := by
      field_simp
    simp only [Function.comp_apply] at *
    rw [hz]
    simp
  · intro x hx
    rw [List.map_map, List.map_map, zip_map_same, List.map_map] at hx
    rw [List.mem_map] at hx
    obtain ⟨a, -, ha⟩ := hx
    rw [← ha]
    have hz : ((N : ℚ) * a ^ 2 / N - ((N : ℚ) * a / N) ^ 2 : ℚ) = 0 := by
      field_simp
    simp only [Function.comp_apply] at *
    rw [hz]
    simp

end GRAIP

namespace GRAIP

/-- C9: for every probabilistic target `P` and sample count `N ≥ 1`, the
sampler returns a mean node count at most `|V(P)|` and non-negative
standard deviations; and when every edge probability is `1` (so that every
trial keeps all edges and realises the same graph, the largest connected
component of `P`), all returned standard deviations are exactly `0` and
every returned mean equals the corresponding single-realisation value. -/
theorem sample_bounds_and_deterministic (P : PGraph) (N n_gl : ℕ)
    (count_func : Graph → List ℚ) (draws : ℕ → ℕ → ℚ) (hN : 1 ≤ N) :
    (sample P N n_gl count_func draws).E_nodes ≤ (numNodes P.G : ℚ) ∧
    0 ≤ (sample P N n_gl count_func draws).std_nodes ∧
    0 ≤ (sample P N n_gl count_func draws).std_edges ∧
    (∀ x ∈ (sample P N n_gl count_func draws).std_graphlets, 0 ≤ x) ∧
    (∀ x ∈ (sample P N n_gl count_func draws).std_degrees, 0 ≤ x) ∧
    ((∀ e ∈ edgeList P.G, P.prob e.1 e.2 = 1) → (∀ i j, draws i j < 1) →
      (count_func (detGraph P)).length = n_gl →
      (sample P N n_gl count_func draws).E_nodes = numNodes (detGraph P) ∧
      (sample P N n_gl count_func draws).E_edges = numEdges (detGraph P) ∧
      (sample P N n_gl count_func draws).E_graphlets
        = count_func (detGraph P) ∧
      (sample P N n_gl count_func draws).E_degrees
        = padTo (degreeHistogram P.G).length
            ((degreeHistogram (detGraph P)).map (fun n => (n : ℚ))) ∧
      (sample P N n_gl count_func draws).std_nodes = 0 ∧
      (sample P N n_gl count_func draws).std_edges = 0 ∧
      (∀ x ∈ (sample P N n_gl count_func draws).std_graphlets, x = 0) ∧
      (∀ x ∈ (sample P N n_gl count_func draws).std_degrees, x = 0)) := by
  refine ⟨sample_E_nodes_le P N n_gl count_func draws hN, ?_, ?_, ?_, ?_,
    fun hdet hdraw hlen =>
      sample_det_values P N n_gl count_func draws hN hdet hdraw hlen⟩
  · simp only [sample]
    exact Real.sqrt_nonneg _
  · simp only [sample]
    exact Real.sqrt_nonneg _
  · intro x hx
    simp only [sample, List.mem_map] at hx
    obtain ⟨a, -, ha⟩ := hx
    rw [← ha]
    exact Real.sqrt_nonneg _
  · intro x hx
    simp only [sample, List.mem_map] at hx
    obtain ⟨a, -, ha⟩ := hx
    rw [← ha]
    exact Real.sqrt_nonneg _

end GRAIP

namespace GRAIP

/-- C9 (witness): the sampler bounds applied to a concrete one-edge target
with unit probability, two samples, and constant-zero draws. -/
theorem sample_bounds_and_deterministic_witness :
    1 ≤ 2 ∧
    (sample ⟨mkGraph [0, 1] [(0, 1)], fun _ _ => 1⟩ 2 1 (fun _ => [0])
        (fun _ _ => 0)).E_nodes
      ≤ ((numNodes (mkGraph [0, 1] [(0, 1)]) : ℕ) : ℚ) :=
  ⟨by norm_num,
    (sample_bounds_and_deterministic ⟨mkGraph [0, 1] [(0, 1)], fun _ _ => 1⟩
      2 1 (fun _ => [0]) (fun _ _ => 0) (by norm_num)).1⟩

end GRAIP

namespace GRAIP

/-- Helper: the value of a 3-node code. -/
theorem get_code3_val (G : Graph) (a b c : ℕ) :
    get_code G [a, b, c]
      = (if G.adj b a then 1 else 0) + (if G.adj c a then 2 else 0)
        + (if G.adj c b then 4 else 0) := by
  by_cases h1 : G.adj b a <;> by_cases h2 : G.adj c a <;> by_cases h3 : G.adj c b <;>
    simp [get_code, h1, h2, h3, List.range_succ]

/-- Helper: the value of a 4-node code extension. -/
theorem update_code4_val (code : ℕ) (G : Graph) (a b c d : ℕ) :
    update_code code G [a, b, c, d]
      = code ||| ((if G.adj d a then 8 else 0) + (if G.adj d b then 16 else 0)
          + (if G.adj d c then 32 else 0)) := by
  by_cases h1 : G.adj d a <;> by_cases h2 : G.adj d b <;> by_cases h3 : G.adj d c <;>
    simp [update_code, h1, h2, h3, List.range_succ, Nat.or_assoc]

/-- Helper: the value of a 5-node code extension. -/
theorem update_code5_val (code : ℕ) (G : Graph) (a b c d e : ℕ) :
    update_code code G [a, b, c, d, e]
      = code ||| ((if G.adj e a then 64 else 0) + (if G.adj e b then 128 else 0)
          + (if G.adj e c then 256 else 0) + (if G.adj e d then 512 else 0)) := by
  by_cases h1 : G.adj e a <;> by_cases h2 : G.adj e b <;> by_cases h3 : G.adj e c <;>
    by_cases h4 : G.adj e d <;>
    simp [update_code, h1, h2, h3, h4, List.range_succ, Nat.or_assoc]

/-- Helper: a 3-node tuple whose second node is adjacent to the first and
whose third is adjacent to one of them has a chain code below 8. -/
theorem chain3_of (G : Graph) (a b c : ℕ) (h1 : G.adj b a = true)
    (h2 : G.adj c a = true ∨ G.adj c b = true) :
    chainCodeB 3 (get_code G [a, b, c]) = true ∧ get_code G [a, b, c] < 8 := by
  rw [get_code3_val, h1]
  by_cases hca : G.adj c a
  · by_cases hcb : G.adj c b
    · rw [hca, hcb]; exact ⟨by decide, by decide⟩
    · rw [hca, if_neg hcb]; exact ⟨by decide, by decide⟩
  · rcases h2 with h | h
    · exact absurd h hca
    · rw [if_neg hca, h]; exact ⟨by decide, by decide⟩

/-- Helper: appending a node adjacent to a tuple member keeps the code a
chain code (depth 4). -/
theorem chain4_of (new3 : ℕ) (hlt : new3 < 8) (hch : chainCodeB 3 new3 = true)
    (x y z : Bool) (hxyz : x = true ∨ y = true ∨ z = true) :
    chainCodeB 4 (new3 ||| ((if x = true then 8 else 0)
        + (if y = true then 16 else 0) + (if z = true then 32 else 0))) = true ∧
    (new3 ||| ((if x = true then 8 else 0) + (if y = true then 16 else 0)
        + (if z = true then 32 else 0))) < 64 := by
  interval_cases new3 <;> cases x <;> cases y <;> cases z <;>
    revert hch hxyz <;> decide

/-- Helper: appending a node adjacent to a tuple member keeps the code a
chain code (depth 5). -/
theorem chain5_of (new4 : ℕ) (hlt : new4 < 64) (hch : chainCodeB 4 new4 = true)
    (w x y z : Bool) (hxyz : w = true ∨ x = true ∨ y = true ∨ z = true) :
    chainCodeB 5 (new4 ||| ((if w = true then 64 else 0)
        + (if x = true then 128 else 0) + (if y = true then 256 else 0)
        + (if z = true then 512 else 0))) = true ∧
    (new4 ||| ((if w = true then 64 else 0) + (if x = true then 128 else 0)
        + (if y = true then 256 else 0) + (if z = true then 512 else 0))) < 1024 := by
  interval_cases new4 <;> cases w <;> cases x <;> cases y <;> cases z <;>
    revert hch hxyz <;> decide

end GRAIP

namespace GRAIP

/-- Helper: an `Option`-valued fold succeeds when every step does. -/
theorem foldlM_option_isSome {α β : Type} (f : β → α → Option β) (l : List α)
    (h : ∀ b a, a ∈ l → (f b a).isSome = true) :
    ∀ b, (l.foldlM f b).isSome = true := by
  induction l with
  | nil => intro b; rfl
  | cons a l ih =>
    intro b
    rw [List.foldlM_cons]
    rcases hfa : f b a with - | b2
    · have h2 := h b a (List.mem_cons_self a l)
      rw [hfa] at h2
      exact Bool.noConfusion h2
    · exact ih (fun b a ha => h b a (List.mem_cons_of_mem _ ha)) b2

/-- Helper: a successful classification makes `lookupBump` succeed. -/
theorem lookupBump_isSome (graphlets : List String)
    (valid : List (String × List ℕ)) (delta : List ℤ) (code : ℕ) (d : ℤ)
    (h : lookupOK graphlets valid code = true) :
    (lookupBump graphlets valid delta code d).isSome = true := by
  unfold lookupOK at h
  unfold lookupBump
  rcases hx : ((code_to_graphlet valid code).bind
      (fun name => graphlets.findIdx? (fun s => s == name))) with - | i
  · rw [hx] at h
    exact Bool.noConfusion h
  · rfl

/-- Helper: the coverage check gives pointwise classification success. -/
theorem configCovers_pointwise (graphlets : List String)
    (valid : List (String × List ℕ)) (k bound : ℕ)
    (h : configCovers graphlets valid k bound = true) :
    ∀ code, code < bound → chainCodeB k code = true →
      lookupOK graphlets valid code = true := by
  intro code hlt hch
  unfold configCovers at h
  rw [List.all_eq_true] at h
  have := h code (List.mem_range.mpr hlt)
  rw [hch] at this
  simpa using this

/-- Helper: membership in `neighbors` gives an adjacency in both
directions. -/
theorem adj_of_mem_neighbors (G : Graph) (hwf : G.Wf) {s v : ℕ}
    (h : v ∈ neighbors G s) : G.adj s v = true ∧ G.adj v s = true := by
  have h2 := (List.mem_filter.mp h).2
  refine ⟨h2, ?_⟩
  rw [← hwf.symm]
  exact h2

end GRAIP

namespace GRAIP

/-- Helper: the depth-5 loop of the node update never fails: every code it
looks up is a chain code below 1024, and the configuration covers those. -/
theorem nodeUpd5_isSome (G : Graph) (hwf : G.Wf) (graphlets : List String)
    (valid : List (String × List ℕ))
    (hcov : ∀ code, code < 1024 → chainCodeB 5 code = true →
      lookupOK graphlets valid code = true)
    (n1 n2 n3 n4 new4 : ℕ) (hlt : new4 < 64) (hch : chainCodeB 4 new4 = true)
    (st : NodeUpdState) :
    (nodeUpd5 G graphlets valid n1 n2 n3 n4 new4 st).isSome = true := by
  unfold nodeUpd5
  apply foldlM_option_isSome
  intro st1 s3 hs3
  apply foldlM_option_isSome
  intro st2 n5 hn5
  dsimp only
  split
  · rfl
  · split
    · rfl
    · have hadj := (adj_of_mem_neighbors G hwf hn5).2
      have hs3' : s3 = n1 ∨ s3 = n2 ∨ s3 = n3 ∨ s3 = n4 := by simpa using hs3
      have hrow : G.adj n5 n1 = true ∨ G.adj n5 n2 = true ∨
          G.adj n5 n3 = true ∨ G.adj n5 n4 = true := by
        rcases hs3' with h | h | h | h <;> rw [h] at hadj <;> tauto
      rw [update_code5_val]
      obtain ⟨hc5, hl5⟩ := chain5_of new4 hlt hch (G.adj n5 n1) (G.adj n5 n2)
        (G.adj n5 n3) (G.adj n5 n4) hrow
      have hok := lookupBump_isSome graphlets valid st2.delta _ 1 (hcov _ hl5 hc5)
      rcases hlb : lookupBump graphlets valid st2.delta
          (new4 ||| ((if G.adj n5 n1 = true then 64 else 0)
            + (if G.adj n5 n2 = true then 128 else 0)
            + (if G.adj n5 n3 = true then 256 else 0)
            + (if G.adj n5 n4 = true then 512 else 0))) 1 with - | delta
      · rw [hlb] at hok
        exact Bool.noConfusion hok
      · rfl

end GRAIP

namespace GRAIP

/-- Helper: the depth-4 loop of the node update never fails. -/
theorem nodeUpd4_isSome (G : Graph) (hwf : G.Wf) (graphlets : List String)
    (valid : List (String × List ℕ)) (N : ℕ)
    (hcov4 : ∀ code, code < 64 → chainCodeB 4 code = true →
      lookupOK graphlets valid code = true)
    (hdeep : N = 8 ∨ (∀ code, code < 1024 → chainCodeB 5 code = true →
      lookupOK graphlets valid code = true))
    (n1 n2 n3 new3 : ℕ) (hlt : new3 < 8) (hch : chainCodeB 3 new3 = true)
    (st : NodeUpdState) :
    (nodeUpd4 G graphlets valid n1 n2 n3 new3 N st).isSome = true := by
  unfold nodeUpd4
  apply foldlM_option_isSome
  intro st1 s2 hs2
  apply foldlM_option_isSome
  intro st2 n4 hn4
  dsimp only
  split
  · rfl
  · split
    · rfl
    · have hadj := (adj_of_mem_neighbors G hwf hn4).2
      have hs2' : s2 = n1 ∨ s2 = n2 ∨ s2 = n3 := by simpa using hs2
      have hrow : G.adj n4 n1 = true ∨ G.adj n4 n2 = true ∨
          G.adj n4 n3 = true := by
        rcases hs2' with h | h | h <;> rw [h] at hadj <;> tauto
      rw [update_code4_val]
      obtain ⟨hc4, hl4⟩ := chain4_of new3 hlt hch (G.adj n4 n1) (G.adj n4 n2)
        (G.adj n4 n3) hrow
      have hok := lookupBump_isSome graphlets valid st2.delta _ 1 (hcov4 _ hl4 hc4)
      rcases hlb : lookupBump graphlets valid st2.delta
          (new3 ||| ((if G.adj n4 n1 = true then 8 else 0)
            + (if G.adj n4 n2 = true then 16 else 0)
            + (if G.adj n4 n3 = true then 32 else 0))) 1 with - | delta
      · rw [hlb] at hok
        exact Bool.noConfusion hok
      · dsimp only
        split
        · rfl
        · rcases hdeep with h8 | hcov5
          · exact absurd h8 (by assumption)
          · exact nodeUpd5_isSome G hwf graphlets valid hcov5 n1 n2 n3 n4 _
              hl4 hc4 _

end GRAIP

namespace GRAIP

/-- Helper: binding into a `some` preserves definedness. -/
theorem bind_some_isSome {α β : Type} (x : Option α) (f : α → β) :
    (x >>= fun a => some (f a)).isSome = x.isSome := by
  cases x <;> rfl

/-- Helper: the node update never fails for any configuration that covers
the chain codes of the depths it explores. -/
theorem update_counts_node_isSome_of (G : Graph) (hwf : G.Wf)
    (graphlets : List String) (valid : List (String × List ℕ)) (n1 : ℕ)
    (hcov3 : ∀ code, code < 8 → chainCodeB 3 code = true →
      lookupOK graphlets valid code = true)
    (hdeep : graphlets.length = 2 ∨
      ((∀ code, code < 64 → chainCodeB 4 code = true →
          lookupOK graphlets valid code = true) ∧
        (graphlets.length = 8 ∨
          (∀ code, code < 1024 → chainCodeB 5 code = true →
            lookupOK graphlets valid code = true)))) :
    (update_counts_node G n1 graphlets valid).isSome = true := by
  unfold update_counts_node
  rw [bind_some_isSome]
  apply foldlM_option_isSome
  intro st1 n2 hn2
  apply foldlM_option_isSome
  intro st2 s1 hs1
  apply foldlM_option_isSome
  intro st3 n3 hn3
  dsimp only
  split
  · rfl
  · split
    · rfl
    · have h1 : G.adj n2 n1 = true := (adj_of_mem_neighbors G hwf hn2).2
      have hadj3 := (adj_of_mem_neighbors G hwf hn3).2
      have hs1' : s1 = n1 ∨ s1 = n2 := by simpa using hs1
      have h2 : G.adj n3 n1 = true ∨ G.adj n3 n2 = true := by
        rcases hs1' with h | h <;> rw [h] at hadj3 <;> tauto
      obtain ⟨hc3, hl3⟩ := chain3_of G n1 n2 n3 h1 h2
      have hok := lookupBump_isSome graphlets valid st3.delta _ 1
        (hcov3 _ hl3 hc3)
      rcases hlb : lookupBump graphlets valid st3.delta
          (get_code G [n1, n2, n3]) 1 with - | delta
      · rw [hlb] at hok
        exact Bool.noConfusion hok
      · dsimp only
        split
        · rfl
        · rcases hdeep with h2' | ⟨hcov4, hdeep5⟩
          · exact absurd h2' (by assumption)
          · exact nodeUpd4_isSome G hwf graphlets valid graphlets.length hcov4
              hdeep5 n1 n2 n3 _ hl3 hc3 _

end GRAIP

namespace GRAIP

/-- Helper (finite check): the 3-graphlet configuration covers all 3-node
chain codes. -/
theorem covers3_3 : configCovers graphlets3 valid3 3 8 = true := by decide

/-- Helper (finite check): the 4-graphlet configuration covers all 3-node
chain codes. -/
theorem covers4_3 : configCovers graphlets4 valid4 3 8 = true := by decide

/-- Helper (finite check): the 4-graphlet configuration covers all 4-node
chain codes. -/
theorem covers4_4 : configCovers graphlets4 valid4 4 64 = true := by decide

/-- Helper (finite check): the 5-graphlet configuration covers all 3-node
chain codes. -/
theorem covers5_3 : configCovers graphlets5 valid5 3 8 = true := by decide

/-- Helper (finite check): the 5-graphlet configuration covers all 4-node
chain codes. -/
theorem covers5_4 : configCovers graphlets5 valid5 4 64 = true := by decide

/-- Helper (finite check): the 5-graphlet configuration covers all 5-node
chain codes. -/
theorem covers5_5 : configCovers graphlets5 valid5 5 1024 = true := by decide

/-- C10: in `update_counts_node`, every tuple whose bitmask code is looked
up is built by appending neighbours of tuple members, so its code is a
chain code (hence induces a connected subgraph); for each of the three
supported graphlet configurations every such code is classified by the
`valid` table with a name present in the graphlet list, so
`code_to_graphlet` never returns `None` and the `graphlets.index` lookup
never fails: the embedded update, which returns `none` exactly when the
source would raise, always returns a value. -/
theorem update_counts_node_never_fails (G : Graph) (hwf : G.Wf) (n1 : ℕ) :
    (update_counts_node G n1 graphlets3 valid3).isSome = true ∧
    (update_counts_node G n1 graphlets4 valid4).isSome = true ∧
    (update_counts_node G n1 graphlets5 valid5).isSome = true := by
  refine ⟨?_, ?_, ?_⟩
  · exact update_counts_node_isSome_of G hwf _ _ n1
      (configCovers_pointwise _ _ 3 8 covers3_3) (Or.inl rfl)
  · exact update_counts_node_isSome_of G hwf _ _ n1
      (configCovers_pointwise _ _ 3 8 covers4_3)
      (Or.inr ⟨configCovers_pointwise _ _ 4 64 covers4_4, Or.inl rfl⟩)
  · exact update_counts_node_isSome_of G hwf _ _ n1
      (configCovers_pointwise _ _ 3 8 covers5_3)
      (Or.inr ⟨configCovers_pointwise _ _ 4 64 covers5_4,
        Or.inr (configCovers_pointwise _ _ 5 1024 covers5_5)⟩)

/-- C10 (witness): the node update succeeds on a concrete triangle for all
three configurations. -/
theorem update_counts_node_never_fails_witness :
    (mkGraph [0, 1, 2] [(0, 1), (1, 2), (2, 0)]).Wf ∧
    ((update_counts_node (mkGraph [0, 1, 2] [(0, 1), (1, 2), (2, 0)]) 0
        graphlets3 valid3).isSome = true ∧
      (update_counts_node (mkGraph [0, 1, 2] [(0, 1), (1, 2), (2, 0)]) 0
        graphlets4 valid4).isSome = true ∧
      (update_counts_node (mkGraph [0, 1, 2] [(0, 1), (1, 2), (2, 0)]) 0
        graphlets5 valid5).isSome = true) := by
  have hwf : (mkGraph [0, 1, 2] [(0, 1), (1, 2), (2, 0)]).Wf := by
    apply mkGraph_wf <;> decide
  exact ⟨hwf, update_counts_node_never_fails _ hwf 0⟩

end GRAIP

namespace GRAIP

/-- Helper: membership in a restricted neighbour list. -/
theorem mem_remFilter {G : Graph} {popped : List ℕ} {v u : ℕ} :
    u ∈ remFilter G popped v ↔ (u ∈ G.nodes ∧ G.adj v u = true ∧ u ∉ popped) := by
  simp [remFilter, neighbors, List.mem_filter, and_assoc]
  tauto

/-- Helper: restricted neighbour lists have no duplicates. -/
theorem remFilter_nodup (G : Graph) (hwf : G.Wf) (popped : List ℕ) (v : ℕ) :
    (remFilter G popped v).Nodup :=
  (hwf.nodup.filter _).filter _

/-- Helper: restricted neighbour lists are no longer than the degree. -/
theorem remFilter_length_le (G : Graph) (popped : List ℕ) (v : ℕ) :
    (remFilter G popped v).length ≤ degree G v :=
  List.length_filter_le _ _

/-- Helper: erasing one more removed vertex from a restricted neighbour
list restricts it further. -/
theorem erase_remFilter (G : Graph) (hwf : G.Wf) (popped : List ℕ) (s v : ℕ) :
    (remFilter G popped v).erase s = remFilter G (popped ++ [s]) v := by
  rw [(remFilter_nodup G hwf popped v).erase_eq_filter]
  unfold remFilter
  rw [List.filter_filter]
  apply List.filter_congr
  intro u _
  by_cases h1 : u = s <;> by_cases h2 : u ∈ popped <;>
    simp [h1, h2, List.mem_append]

/-- Helper: removing a non-neighbour leaves a restricted neighbour list
unchanged. -/
theorem remFilter_snoc_of_not_adj (G : Graph) (popped : List ℕ) {s v : ℕ}
    (h : ¬ G.adj v s = true) :
    remFilter G (popped ++ [s]) v = remFilter G popped v := by
  unfold remFilter
  apply List.filter_congr
  intro u hu
  have hus : u ≠ s := by
    rintro rfl
    exact h ((List.mem_filter.mp hu).2)
  by_cases h2 : u ∈ popped <;> simp [h2, hus, List.mem_append]

/-- Helper: ranks are stable under extending the list on the right. -/
theorem rankIn_append_of_mem {l : List ℕ} {v : ℕ} (h : v ∈ l) (l' : List ℕ) :
    rankIn (l ++ l') v = rankIn l v := by
  induction l with
  | nil => cases h
  | cons a t ih =>
    by_cases hav : a = v
    · simp [rankIn, hav]
    · have hvt : v ∈ t := by
        rcases List.mem_cons.mp h with h' | h'
        · exact absurd h'.symm hav
        · exact h'
      simp [rankIn, hav, ih hvt]

/-- Helper: the rank of a fresh vertex appended on the right. -/
theorem rankIn_append_of_not_mem {l : List ℕ} {v : ℕ} (h : v ∉ l)
    (l' : List ℕ) : rankIn (l ++ l') v = l.length + rankIn l' v := by
  induction l with
  | nil => simp
  | cons a t ih =>
    have hav : a ≠ v := by rintro rfl; exact h (List.mem_cons_self _ _)
    have hvt : v ∉ t := fun h' => h (List.mem_cons_of_mem _ h')
    simp [rankIn, hav, ih hvt]
    omega

/-- Helper: the rank of a member is below the length. -/
theorem rankIn_lt_length {l : List ℕ} {v : ℕ} (h : v ∈ l) :
    rankIn l v < l.length := by
  induction l with
  | nil => cases h
  | cons a t ih =>
    by_cases hav : a = v
    · simp [rankIn, hav]
    · have hvt : v ∈ t := by
        rcases List.mem_cons.mp h with h' | h'
        · exact absurd h'.symm hav
        · exact h'
      simp [rankIn, hav]
      exact ih hvt

/-- Helper: a left fold with `max` dominates its initial value. -/
theorem init_le_foldl_max : ∀ (l : List ℕ) (b : ℕ), b ≤ l.foldl max b
  | [], _ => le_refl _
  | c :: t, b => le_trans (le_max_left b c) (init_le_foldl_max t (max b c))

/-- Helper: a left fold with `max` dominates every list element. -/
theorem le_foldl_max_of_mem : ∀ (l : List ℕ) (b a : ℕ), a ∈ l → a ≤ l.foldl max b
  | [], _, _, h => absurd h (List.not_mem_nil _)
  | c :: t, b, a, h => by
    rcases List.mem_cons.mp h with h' | h'
    · subst h'
      exact le_trans (le_max_right b a) (init_le_foldl_max t _)
    · exact le_foldl_max_of_mem t (max b c) a h'

/-- Helper: a left fold with `min` is below its initial value. -/
theorem foldl_min_le_init : ∀ (l : List ℕ) (b : ℕ), l.foldl min b ≤ b
  | [], _ => le_refl _
  | c :: t, b => le_trans (foldl_min_le_init t (min b c)) (min_le_left b c)

/-- Helper: a left fold with `min` is below every list element. -/
theorem foldl_min_le_of_mem : ∀ (l : List ℕ) (b a : ℕ), a ∈ l → l.foldl min b ≤ a
  | [], _, _, h => absurd h (List.not_mem_nil _)
  | c :: t, b, a, h => by
    rcases List.mem_cons.mp h with h' | h'
    · subst h'
      exact le_trans (foldl_min_le_init t _) (min_le_right b a)
    · exact foldl_min_le_of_mem t (min b c) a h'

/-- Helper: reading a freshly written bucket. -/
theorem getD_set_self (l : List (List ℕ)) (i : ℕ) (x : List ℕ)
    (h : i < l.length) : (l.set i x).getD i [] = x := by
  rw [List.getD_eq_getElem?_getD, List.getElem?_set_self h]
  rfl

/-- Helper: writing one bucket leaves the others unchanged. -/
theorem getD_set_ne (l : List (List ℕ)) {i j : ℕ} (x : List ℕ) (h : i ≠ j) :
    (l.set i x).getD j [] = l.getD j [] := by
  rw [List.getD_eq_getElem?_getD, List.getElem?_set_ne h,
    ← List.getD_eq_getElem?_getD]

end GRAIP

namespace GRAIP

/-- Helper: the bucket scan lands on the first non-empty bucket at or
above its starting point, provided one exists within fuel range. -/
theorem findNonempty_spec (dl : List (List ℕ)) :
    ∀ (fuel start : ℕ), (∃ d, start ≤ d ∧ d < start + fuel ∧ dl.getD d [] ≠ []) →
      (start ≤ findNonempty dl start fuel ∧
        dl.getD (findNonempty dl start fuel) [] ≠ [] ∧
        ∀ d, start ≤ d → d < findNonempty dl start fuel → dl.getD d [] = []) := by
  intro fuel
  induction fuel with
  | zero =>
    intro start h
    obtain ⟨d, h1, h2, _⟩ := h
    omega
  | succ fuel ih =>
    intro start h
    by_cases hs : (dl.getD start []).isEmpty
    · have hse : dl.getD start [] = [] := List.isEmpty_iff.mp hs
      have hex : ∃ d, start + 1 ≤ d ∧ d < start + 1 + fuel ∧ dl.getD d [] ≠ [] := by
        obtain ⟨d, h1, h2, h3⟩ := h
        refine ⟨d, ?_, by omega, h3⟩
        rcases Nat.eq_or_lt_of_le h1 with h' | h'
        · exact absurd (h' ▸ hse) h3
        · exact h'
      obtain ⟨ih1, ih2, ih3⟩ := ih (start + 1) hex
      have hunf : findNonempty dl start (fuel + 1) = findNonempty dl (start + 1) fuel := by
        simp only [findNonempty, hs, if_true]
      refine ⟨by omega, hunf ▸ ih2, ?_⟩
      intro d hd1 hd2
      rw [hunf] at hd2
      rcases Nat.eq_or_lt_of_le hd1 with h' | h'
      · exact h' ▸ hse
      · exact ih3 d h' hd2
    · have hs' : (dl.getD start []).isEmpty = false := by
        revert hs
        cases (dl.getD start []).isEmpty <;> simp
      have hunf : findNonempty dl start (fuel + 1) = start := by
        simp only [findNonempty, hs']
        rfl
      refine ⟨le_of_eq hunf.symm, ?_, ?_⟩
      · rw [hunf]
        intro h'
        apply hs
        rw [h']
        rfl
      · intro d hd1 hd2
        rw [hunf] at hd2
        omega

/-- Helper: the minimum remaining degree is at most the degeneracy. -/
theorem min_remaining_le_degeneracy (G : Graph) (hwf : G.Wf)
    (popped : List ℕ) (m : ℕ)
    (hne : ∃ v, v ∈ G.nodes ∧ v ∉ popped)
    (hlow : ∀ v ∈ G.nodes, v ∉ popped → m ≤ (remFilter G popped v).length) :
    m ≤ degeneracy G := by
  classical
  set S : Finset ℕ := (G.nodes.filter (fun v => decide (v ∉ popped))).toFinset with hS
  have hmemS : ∀ v, v ∈ S ↔ (v ∈ G.nodes ∧ v ∉ popped) := by
    intro v
    simp [hS, List.mem_filter]
  have hSne : S.Nonempty := by
    obtain ⟨v, hv1, hv2⟩ := hne
    exact ⟨v, (hmemS v).mpr ⟨hv1, hv2⟩⟩
  have hSsub : S ∈ G.nodes.toFinset.powerset := by
    rw [Finset.mem_powerset]
    intro v hv
    rw [List.mem_toFinset]
    exact ((hmemS v).mp hv).1
  have hcard : ∀ v ∈ S, inducedDeg G S v = (remFilter G popped v).length := by
    intro v _
    have hnd := remFilter_nodup G hwf popped v
    have hset : (remFilter G popped v).toFinset
        = S.filter (fun u => G.adj v u = true) := by
      ext u
      rw [List.mem_toFinset, mem_remFilter, Finset.mem_filter, hmemS]
      tauto
    rw [inducedDeg, ← hset, List.toFinset_card_of_nodup hnd]
  have hinf : m ≤ S.inf' hSne (inducedDeg G S) := by
    apply Finset.le_inf'
    intro v hv
    rw [hcard v hv]
    exact hlow v ((hmemS v).mp hv).1 ((hmemS v).mp hv).2
  calc m ≤ S.inf' hSne (inducedDeg G S) := hinf
    _ = (fun T => if h : T.Nonempty then T.inf' h (inducedDeg G T) else 0) S := by
        simp [hSne]
    _ ≤ degeneracy G :=
        Finset.le_sup
          (f := fun T => if h : T.Nonempty then T.inf' h (inducedDeg G T) else 0)
          hSsub

end GRAIP

namespace GRAIP

/-- Helper: processing one remaining neighbour of the vertex being removed
preserves the inner-loop invariant, moving that neighbour from the stale to
the fresh side. -/
theorem processNeighbor_mid (G : Graph) (hwf : G.Wf) (popped : List ℕ)
    (source : ℕ) (hsm : source ∈ G.nodes) (hsp : source ∉ popped)
    (E0 : List (ℕ × ℕ)) (done rest : List ℕ) (node : ℕ) (σ : TOState)
    (hL : remFilter G popped source = done ++ node :: rest)
    (h : TOMid G popped source E0 done (node :: rest) σ) :
    TOMid G popped source E0 (done ++ [node]) rest
      (processNeighbor source σ node) := by
  have hLnd : (done ++ node :: rest).Nodup :=
    hL ▸ remFilter_nodup G hwf popped source
  obtain ⟨hdnd, hcnd, hdisj⟩ := List.nodup_append.mp hLnd
  have hnrest : node ∉ rest := (List.nodup_cons.mp hcnd).1
  have hndone : node ∉ done := fun hmem => hdisj hmem (List.mem_cons_self _ _)
  have hnodeL : node ∈ remFilter G popped source := by rw [hL]; simp
  obtain ⟨hnmem, hnadj, hnp⟩ := mem_remFilter.mp hnodeL
  have hnsrc : node ≠ source := by
    intro he
    rw [he, hwf.irrefl source] at hnadj
    cases hnadj
  have hstale := h.stale node (List.mem_cons_self _ _)
  have hdeg_eq : σ.degs node = (remFilter G popped node).length := hstale.2
  have hsrcmem : source ∈ remFilter G popped node :=
    mem_remFilter.mpr ⟨hsm, by rw [hwf.symm node source]; exact hnadj, hsp⟩
  have hdegpos : 1 ≤ σ.degs node := by
    rw [hdeg_eq]
    exact List.length_pos.mpr (List.ne_nil_of_mem hsrcmem)
  have hdegle : σ.degs node ≤ (G.nodes.map (degree G)).foldl max 0 := by
    rw [hdeg_eq]
    exact le_trans (remFilter_length_le G popped node)
      (le_foldl_max_of_mem _ 0 _ (List.mem_map_of_mem _ hnmem))
  have hnp' : node ∉ popped ++ [source] := by
    simp [List.mem_append, hnp, hnsrc]
  set deg := σ.degs node with hdegdef
  have hdeglt : deg < σ.degList.length := by rw [h.len_eq]; omega
  have hdm1lt : deg - 1 < σ.degList.length := by omega
  have hdne : deg - 1 ≠ deg := by omega
  have hproj_nbrs : (processNeighbor source σ node).nbrs
      = fun v => if v = node then (σ.nbrs node).erase source
        else σ.nbrs v := rfl
  have hproj_degs : (processNeighbor source σ node).degs
      = fun v => if v = node then deg - 1 else σ.degs v := rfl
  have hproj_dl : (processNeighbor source σ node).degList
      = (σ.degList.set deg ((σ.degList.getD deg []).erase node)).set (deg - 1)
        (((σ.degList.set deg
          ((σ.degList.getD deg []).erase node)).getD (deg - 1) [])
            ++ [node]) := rfl
  have hproj_min : (processNeighbor source σ node).minDegree
      = if deg - 1 < σ.minDegree then σ.minDegree - 1
        else σ.minDegree := rfl
  have hproj_edges : (processNeighbor source σ node).dagEdges
      = σ.dagEdges ++ [(source, node)] := rfl
  have hproj_order : (processNeighbor source σ node).order = σ.order := rfl
  have hdl1 : ∀ d,
      (σ.degList.set deg ((σ.degList.getD deg []).erase node)).getD d []
      = if d = deg then (σ.degList.getD deg []).erase node
        else σ.degList.getD d [] := by
    intro d
    by_cases hd : d = deg
    · subst hd
      rw [if_pos rfl]
      exact getD_set_self _ _ _ hdeglt
    · rw [if_neg hd]
      exact getD_set_ne _ _ (fun he => hd he.symm)
  have hdl2 : ∀ d, (processNeighbor source σ node).degList.getD d []
      = if d = deg - 1 then σ.degList.getD (deg - 1) [] ++ [node]
        else if d = deg then (σ.degList.getD deg []).erase node
        else σ.degList.getD d [] := by
    intro d
    rw [hproj_dl]
    by_cases hd : d = deg - 1
    · subst hd
      rw [if_pos rfl,
        getD_set_self _ _ _ (by rw [List.length_set]; exact hdm1lt),
        hdl1, if_neg hdne]
    · rw [if_neg hd, getD_set_ne _ _ (fun he => hd he.symm), hdl1]
  refine ⟨?_, ?_, ?_, ?_, ?_, ?_, ?_, ?_⟩
  · rw [hproj_order]
    exact h.order_eq
  · intro v hv
    have hvne : v ≠ node := fun he => hnrest (he ▸ hv)
    rw [hproj_nbrs, hproj_degs]
    simp only [if_neg hvne]
    exact h.stale v (List.mem_cons_of_mem _ hv)
  · intro v hvmem hvp hvrest
    by_cases hvn : v = node
    · subst hvn
      rw [hproj_nbrs, hproj_degs]
      simp only [eq_self_iff_true, if_true]
      constructor
      · rw [hstale.1, erase_remFilter G hwf]
      · rw [← erase_remFilter G hwf popped source v,
          List.length_erase_of_mem hsrcmem, ← hdeg_eq]
    · have hvtodo : v ∉ node :: rest := by
        simp [List.mem_cons, hvn, hvrest]
      rw [hproj_nbrs, hproj_degs]
      simp only [if_neg hvn]
      exact h.fresh v hvmem hvp hvtodo
  · rw [hproj_dl]
    simp only [List.length_set]
    exact h.len_eq
  · intro d v
    rw [hdl2 d]
    simp only [hproj_degs]
    by_cases hvn : v = node
    · rw [if_pos hvn]
      subst hvn
      by_cases hd1 : d = deg - 1
      · subst hd1
        rw [if_pos rfl]
        constructor
        · intro _
          exact ⟨hnmem, hnp', rfl⟩
        · intro _
          exact List.mem_append.mpr (Or.inr (List.mem_singleton.mpr rfl))
      · rw [if_neg hd1]
        by_cases hd2 : d = deg
        · subst hd2
          rw [if_pos rfl]
          constructor
          · intro hmem'
            exact absurd hmem' (h.bucket_nodup deg).not_mem_erase
          · rintro ⟨-, -, hdd⟩
            omega
        · rw [if_neg hd2]
          constructor
          · intro hmem'
            exact absurd ((h.bucket_mem d v).mp hmem').2.2.symm hd2
          · rintro ⟨-, -, hdd⟩
            exact absurd hdd.symm hd1
    · rw [if_neg hvn]
      by_cases hd1 : d = deg - 1
      · subst hd1
        rw [if_pos rfl, List.mem_append, List.mem_singleton]
        constructor
        · rintro (hmem' | rfl)
          · exact (h.bucket_mem _ v).mp hmem'
          · exact absurd rfl hvn
        · intro hc
          exact Or.inl ((h.bucket_mem _ v).mpr hc)
      · rw [if_neg hd1]
        by_cases hd2 : d = deg
        · subst hd2
          rw [if_pos rfl, (h.bucket_nodup deg).mem_erase_iff]
          constructor
          · rintro ⟨-, hmem'⟩
            exact (h.bucket_mem _ v).mp hmem'
          · intro hc
            exact ⟨hvn, (h.bucket_mem _ v).mpr hc⟩
        · rw [if_neg hd2]
          exact h.bucket_mem d v
  · intro d
    rw [hdl2 d]
    by_cases hd1 : d = deg - 1
    · subst hd1
      rw [if_pos rfl]
      have hnmem2 : node ∉ σ.degList.getD (deg - 1) [] := by
        intro hc
        have hdd := ((h.bucket_mem _ node).mp hc).2.2
        omega
      rw [List.nodup_append]
      refine ⟨h.bucket_nodup (deg - 1), List.nodup_singleton _, ?_⟩
      intro a ha hb
      rw [List.mem_singleton] at hb
      subst hb
      exact hnmem2 ha
    · rw [if_neg hd1]
      by_cases hd2 : d = deg
      · subst hd2
        rw [if_pos rfl]
        exact (h.bucket_nodup deg).erase _
      · rw [if_neg hd2]
        exact h.bucket_nodup d
  · intro d hd
    rw [hproj_min] at hd
    rw [hdl2 d]
    have hmin_le_deg : σ.minDegree ≤ deg := by
      by_contra hc
      push_neg at hc
      have hbempty := h.min_empty deg hc
      have hmem' : node ∈ σ.degList.getD deg [] :=
        (h.bucket_mem deg node).mpr ⟨hnmem, hnp', rfl⟩
      rw [hbempty] at hmem'
      cases hmem'
    by_cases hlt : deg - 1 < σ.minDegree
    · rw [if_pos hlt] at hd
      have hdeg_eq_min : deg = σ.minDegree := by omega
      rw [if_neg (by omega), if_neg (by omega)]
      exact h.min_empty d (by omega)
    · rw [if_neg hlt] at hd
      push_neg at hlt
      rw [if_neg (by omega), if_neg (by omega)]
      exact h.min_empty d hd
  · rw [hproj_edges, h.edges_eq, List.map_append, List.append_assoc]
    rfl

end GRAIP

namespace GRAIP

/-- Helper: folding the neighbour loop over the whole remaining neighbour
list carries the inner invariant to the end. -/
theorem foldl_mid (G : Graph) (hwf : G.Wf) (popped : List ℕ) (source : ℕ)
    (hsm : source ∈ G.nodes) (hsp : source ∉ popped) (E0 : List (ℕ × ℕ)) :
    ∀ (todo done : List ℕ) (σ : TOState),
      remFilter G popped source = done ++ todo →
      TOMid G popped source E0 done todo σ →
      TOMid G popped source E0 (done ++ todo) []
        (todo.foldl (processNeighbor source) σ) := by
  intro todo
  induction todo with
  | nil =>
    intro done σ hL h
    simpa using h
  | cons node rest ih =>
    intro done σ hL h
    have h1 := processNeighbor_mid G hwf popped source hsm hsp E0
      done rest node σ hL h
    have h2 := ih (done ++ [node]) _ (by rw [hL]; simp) h1
    simpa using h2

end GRAIP

namespace GRAIP

/-- Helper: one iteration of the main removal loop preserves the outer
invariant and removes exactly one more vertex. -/
theorem topoStep_inv (G : Graph) (hwf : G.Wf) (st : TOState)
    (hinv : TOInv G st) (hrem : ∃ v, v ∈ G.nodes ∧ v ∉ st.order) :
    TOInv G (topoStep st) ∧
      (topoStep st).order.length = st.order.length + 1 := by
  obtain ⟨v0, hv0m, hv0p⟩ := hrem
  have hv0deg : st.degs v0 ≤ (G.nodes.map (degree G)).foldl max 0 := by
    rw [hinv.degs_eq v0 hv0m hv0p]
    exact le_trans (remFilter_length_le G st.order v0)
      (le_foldl_max_of_mem _ 0 _ (List.mem_map_of_mem _ hv0m))
  have hv0b : v0 ∈ st.degList.getD (st.degs v0) [] :=
    (hinv.bucket_mem _ v0).mpr ⟨hv0m, hv0p, rfl⟩
  have hv0min : st.minDegree ≤ st.degs v0 := by
    by_contra hc
    push_neg at hc
    rw [hinv.min_empty _ hc] at hv0b
    cases hv0b
  have hex : ∃ d, st.minDegree ≤ d ∧ d < st.minDegree + st.degList.length ∧
      st.degList.getD d [] ≠ [] := by
    refine ⟨st.degs v0, hv0min, ?_, List.ne_nil_of_mem hv0b⟩
    rw [hinv.len_eq]
    omega
  obtain ⟨hm1, hm2, hm3⟩ :=
    findNonempty_spec st.degList st.degList.length st.minDegree hex
  set m := findNonempty st.degList st.minDegree st.degList.length with hmdef
  have hbelow : ∀ d, d < m → st.degList.getD d [] = [] := by
    intro d hd
    by_cases hd2 : d < st.minDegree
    · exact hinv.min_empty d hd2
    · push_neg at hd2
      exact hm3 d hd2 hd
  set bucket := st.degList.getD m [] with hbdef
  set source := bucket.getLastD 0 with hsdef
  have hsrc_last : source = bucket.getLast hm2 := by
    rw [hsdef, List.getLastD_eq_getLast?, List.getLast?_eq_getLast bucket hm2,
      Option.getD_some]
  have hsrcb : source ∈ bucket := by
    rw [hsrc_last]
    exact List.getLast_mem hm2
  obtain ⟨hsm, hsp, hsdeg⟩ := (hinv.bucket_mem m source).mp hsrcb
  have hmlt : m < st.degList.length := by
    rw [hinv.len_eq]
    have hsd : st.degs source ≤ (G.nodes.map (degree G)).foldl max 0 := by
      rw [hinv.degs_eq source hsm hsp]
      exact le_trans (remFilter_length_le G st.order source)
        (le_foldl_max_of_mem _ 0 _ (List.mem_map_of_mem _ hsm))
    omega
  have hnbrs_src : st.nbrs source = remFilter G st.order source :=
    hinv.nbrs_eq source hsm hsp
  set popped := st.order with hpopdef
  set L := remFilter G popped source with hLdef
  have hstep : topoStep st = (st.nbrs source).foldl (processNeighbor source)
      { st with
        degList := st.degList.set m bucket.dropLast
        minDegree := m
        order := popped ++ [source] } := rfl
  have hbnd : bucket.Nodup := hinv.bucket_nodup m
  have hdropmem : ∀ v, v ∈ bucket.dropLast ↔ (v ∈ bucket ∧ v ≠ source) := by
    intro v
    have hsplit : bucket.dropLast ++ [bucket.getLast hm2] = bucket :=
      List.dropLast_append_getLast hm2
    have hnd2 : (bucket.dropLast ++ [bucket.getLast hm2]).Nodup := by
      rw [hsplit]
      exact hbnd
    obtain ⟨-, -, hdisj⟩ := List.nodup_append.mp hnd2
    constructor
    · intro hv
      refine ⟨by rw [← hsplit]; exact List.mem_append_left _ hv, ?_⟩
      intro he
      refine hdisj hv ?_
      rw [List.mem_singleton, ← hsrc_last, he]
    · rintro ⟨hvb, hvne⟩
      rw [← hsplit] at hvb
      rcases List.mem_append.mp hvb with hv | hv
      · exact hv
      · rw [List.mem_singleton, ← hsrc_last] at hv
        exact absurd hv hvne
  have hmid0 : TOMid G popped source st.dagEdges [] L
      { st with
        degList := st.degList.set m bucket.dropLast
        minDegree := m
        order := popped ++ [source] } := by
    refine ⟨rfl, ?_, ?_, ?_, ?_, ?_, ?_, ?_⟩
    · intro v hv
      obtain ⟨hvm, hvadj, hvp⟩ := mem_remFilter.mp hv
      exact ⟨hinv.nbrs_eq v hvm hvp, hinv.degs_eq v hvm hvp⟩
    · intro v hvm hvp' hvL
      have hvp : v ∉ popped := fun hc => hvp' (List.mem_append_left _ hc)
      have hnadj : ¬ G.adj source v = true := by
        intro hc
        exact hvL (mem_remFilter.mpr ⟨hvm, hc, hvp⟩)
      have hvadj : ¬ G.adj v source = true := by
        rw [hwf.symm v source]
        exact hnadj
      rw [remFilter_snoc_of_not_adj G popped hvadj]
      exact ⟨hinv.nbrs_eq v hvm hvp, hinv.degs_eq v hvm hvp⟩
    · simp only [List.length_set]
      exact hinv.len_eq
    · intro d v
      by_cases hd : d = m
      · subst hd
        rw [getD_set_self _ _ _ hmlt, hdropmem v]
        constructor
        · rintro ⟨hvb, hvne⟩
          obtain ⟨h1, h2, h3⟩ := (hinv.bucket_mem _ v).mp hvb
          refine ⟨h1, ?_, h3⟩
          simp [List.mem_append, h2, hvne]
        · rintro ⟨h1, h2, h3⟩
          have hvp : v ∉ popped := fun hc => h2 (List.mem_append_left _ hc)
          have hvne : v ≠ source := by
            intro hc
            refine h2 ?_
            rw [hc]
            simp
          exact ⟨(hinv.bucket_mem _ v).mpr ⟨h1, hvp, h3⟩, hvne⟩
      · rw [getD_set_ne _ _ (fun he => hd he.symm)]
        constructor
        · intro hvb
          obtain ⟨h1, h2, h3⟩ := (hinv.bucket_mem d v).mp hvb
          have hvne : v ≠ source := by
            intro he
            apply hd
            rw [← h3, he, hsdeg]
          refine ⟨h1, ?_, h3⟩
          simp [List.mem_append, h2, hvne]
        · rintro ⟨h1, h2, h3⟩
          exact (hinv.bucket_mem d v).mpr
            ⟨h1, fun hc => h2 (List.mem_append_left _ hc), h3⟩
    · intro d
      by_cases hd : d = m
      · subst hd
        rw [getD_set_self _ _ _ hmlt]
        exact List.Nodup.sublist (List.dropLast_sublist bucket) hbnd
      · rw [getD_set_ne _ _ (fun he => hd he.symm)]
        exact hinv.bucket_nodup d
    · intro d hd
      have hd' : d < m := hd
      have hdm : d ≠ m := by omega
      rw [getD_set_ne _ _ (fun he => hdm he.symm)]
      exact hbelow d hd'
    · simp
  have hmid := foldl_mid G hwf popped source hsm hsp st.dagEdges L [] _
    (by simp) hmid0
  have hfin : TOMid G popped source st.dagEdges L [] (topoStep st) := by
    rw [hstep, hnbrs_src]
    simpa using hmid
  have horder : (topoStep st).order = popped ++ [source] := hfin.order_eq
  have hedges : (topoStep st).dagEdges
      = st.dagEdges ++ L.map (fun b => (source, b)) := hfin.edges_eq
  have hrank_mem : ∀ a ∈ popped,
      rankIn (popped ++ [source]) a = rankIn popped a :=
    fun a ha => rankIn_append_of_mem ha [source]
  have hrank_src : rankIn (popped ++ [source]) source = popped.length := by
    rw [rankIn_append_of_not_mem hsp]
    simp [rankIn]
  refine ⟨⟨?_, ?_, ?_, ?_, ?_, ?_, ?_, ?_, ?_, ?_, ?_⟩, ?_⟩
  · intro v hv
    rw [horder] at hv
    rcases List.mem_append.mp hv with hv' | hv'
    · exact hinv.sub v hv'
    · rw [List.mem_singleton] at hv'
      rw [hv']
      exact hsm
  · rw [horder, List.nodup_append]
    refine ⟨hinv.nodup, List.nodup_singleton _, ?_⟩
    intro a ha hb
    rw [List.mem_singleton] at hb
    subst hb
    exact hsp ha
  · intro v hvm
    rw [horder]
    intro hvp'
    exact (hfin.fresh v hvm hvp' (List.not_mem_nil v)).1
  · intro v hvm
    rw [horder]
    intro hvp'
    exact (hfin.fresh v hvm hvp' (List.not_mem_nil v)).2
  · exact hfin.len_eq
  · intro d v
    rw [horder]
    exact hfin.bucket_mem d v
  · exact hfin.bucket_nodup
  · exact hfin.min_empty
  · intro a b
    rw [hedges, horder, List.mem_append]
    constructor
    · rintro (hE | hmapmem)
      · obtain ⟨hadj, hamem, hrank⟩ := (hinv.edges_iff a b).mp hE
        refine ⟨hadj, List.mem_append_left _ hamem, ?_⟩
        intro hb'
        rcases List.mem_append.mp hb' with hb | hb
        · rw [hrank_mem a hamem, hrank_mem b hb]
          exact hrank hb
        · rw [List.mem_singleton] at hb
          subst hb
          rw [hrank_mem a hamem, hrank_src]
          exact rankIn_lt_length hamem
      · obtain ⟨b', hb'L, hbeq⟩ := List.mem_map.mp hmapmem
        cases hbeq
        obtain ⟨hbm, hbadj, hbp⟩ := mem_remFilter.mp hb'L
        refine ⟨hbadj, List.mem_append_right _ (List.mem_singleton.mpr rfl), ?_⟩
        intro hbmem'
        rcases List.mem_append.mp hbmem' with hb | hb
        · exact absurd hb hbp
        · rw [List.mem_singleton] at hb
          exfalso
          rw [hb, hwf.irrefl source] at hbadj
          cases hbadj
    · rintro ⟨hadj, hamem', hrank'⟩
      rcases List.mem_append.mp hamem' with ha | ha
      · left
        refine (hinv.edges_iff a b).mpr ⟨hadj, ha, ?_⟩
        intro hb
        have hba := hrank' (List.mem_append_left _ hb)
        rw [hrank_mem a ha, hrank_mem b hb] at hba
        exact hba
      · rw [List.mem_singleton] at ha
        subst ha
        right
        rw [List.mem_map]
        refine ⟨b, ?_, rfl⟩
        have hbnodes := (hwf.adj_mem _ _ hadj).2
        have hbp : b ∉ popped := by
          intro hc
          have hlt := hrank' (List.mem_append_left _ hc)
          rw [hrank_src, hrank_mem b hc] at hlt
          have hup := rankIn_lt_length hc
          omega
        exact mem_remFilter.mpr ⟨hbnodes, hadj, hbp⟩
  · rw [hedges, List.nodup_append]
    refine ⟨hinv.edges_nodup, ?_, ?_⟩
    · refine List.Nodup.map ?_ (remFilter_nodup G hwf popped source)
      intro x y hxy
      simpa using hxy
    · intro e he hemap
      have hamem := ((hinv.edges_iff e.1 e.2).mp he).2.1
      obtain ⟨b', -, hbeq⟩ := List.mem_map.mp hemap
      have hes : e.1 = source := by
        rw [← hbeq]
      rw [hes] at hamem
      exact hsp hamem
  · intro a
    rw [hedges, List.filter_append, List.length_append]
    by_cases hasrc : a = source
    · rw [hasrc]
      have hold0 : st.dagEdges.filter (fun e => decide (e.1 = source)) = [] := by
        rw [List.filter_eq_nil_iff]
        intro e he
        have hamem := ((hinv.edges_iff e.1 e.2).mp he).2.1
        simp only [decide_eq_true_eq]
        intro he'
        rw [he'] at hamem
        exact hsp hamem
      have hmapall : (L.map (fun b => (source, b))).filter
          (fun e => decide (e.1 = source)) = L.map (fun b => (source, b)) := by
        rw [List.filter_eq_self]
        intro e he
        obtain ⟨b', -, hbeq⟩ := List.mem_map.mp he
        rw [← hbeq]
        simp
      rw [hold0, hmapall]
      simp only [List.length_nil, List.length_map, Nat.zero_add]
      have hLlen : L.length = m := by
        rw [hLdef, ← hinv.degs_eq source hsm hsp, hsdeg]
      rw [hLlen]
      apply min_remaining_le_degeneracy G hwf popped m ⟨source, hsm, hsp⟩
      intro v hvm hvp
      rw [← hinv.degs_eq v hvm hvp]
      by_contra hc
      push_neg at hc
      have hvb := (hinv.bucket_mem _ v).mpr ⟨hvm, hvp, rfl⟩
      rw [hbelow _ hc] at hvb
      cases hvb
    · have hmap0 : (L.map (fun b => (source, b))).filter
          (fun e => decide (e.1 = a)) = [] := by
        rw [List.filter_eq_nil_iff]
        intro e he
        obtain ⟨b', -, hbeq⟩ := List.mem_map.mp he
        rw [← hbeq]
        simp only [decide_eq_true_eq]
        intro he'
        exact hasrc he'.symm
      rw [hmap0]
      simp only [List.length_nil, Nat.add_zero]
      exact hinv.outdeg_le a
  · rw [horder]
    simp

end GRAIP

namespace GRAIP

/-- Helper: the initial bucket state satisfies the loop invariant. -/
theorem topoInit_inv (G : Graph) (hwf : G.Wf) : TOInv G (topoInit G) := by
  have hfilt : ∀ v, remFilter G [] v = neighbors G v := by
    intro v
    unfold remFilter
    rw [List.filter_eq_self]
    intro u _
    simp
  have hproj_nbrs : (topoInit G).nbrs = fun v => neighbors G v := rfl
  have hproj_degs : (topoInit G).degs = fun v => degree G v := rfl
  have hproj_order : (topoInit G).order = [] := rfl
  have hproj_edges : (topoInit G).dagEdges = [] := rfl
  have hdegle : ∀ v ∈ G.nodes, degree G v ≤ (G.nodes.map (degree G)).foldl max 0 :=
    fun v hv => le_foldl_max_of_mem _ 0 _ (List.mem_map_of_mem _ hv)
  have hgetD : ∀ d, (topoInit G).degList.getD d []
      = if d < (G.nodes.map (degree G)).foldl max 0 + 1
        then G.nodes.filter (fun v => decide (degree G v = d)) else [] := by
    intro d
    show (((List.range ((G.nodes.map (degree G)).foldl max 0 + 1)).map
      (fun d => G.nodes.filter (fun v => decide (degree G v = d)))).getD d []) = _
    by_cases hd : d < (G.nodes.map (degree G)).foldl max 0 + 1
    · rw [if_pos hd, List.getD_eq_getElem?_getD, List.getElem?_map,
        List.getElem?_range hd]
      rfl
    · rw [if_neg hd, List.getD_eq_getElem?_getD, List.getElem?_map,
        List.getElem?_eq_none (by simpa using hd)]
      rfl
  refine ⟨?_, ?_, ?_, ?_, ?_, ?_, ?_, ?_, ?_, ?_, ?_⟩
  · intro v hv
    rw [hproj_order] at hv
    cases hv
  · rw [hproj_order]
    exact List.nodup_nil
  · intro v hvm _
    rw [hproj_nbrs, hproj_order, hfilt v]
  · intro v hvm _
    rw [hproj_degs, hproj_order, hfilt v]
    rfl
  · show ((List.range ((G.nodes.map (degree G)).foldl max 0 + 1)).map
      (fun d => G.nodes.filter (fun v => decide (degree G v = d)))).length = _
    rw [List.length_map, List.length_range]
  · intro d v
    rw [hgetD d, hproj_order, hproj_degs]
    by_cases hd : d < (G.nodes.map (degree G)).foldl max 0 + 1
    · rw [if_pos hd, List.mem_filter]
      simp only [decide_eq_true_eq, List.not_mem_nil, not_false_iff, true_and]
    · rw [if_neg hd]
      constructor
      · intro hc
        cases hc
      · rintro ⟨h1, -, h3⟩
        exfalso
        have := hdegle v h1
        simp only at h3
        omega
  · intro d
    rw [hgetD d]
    by_cases hd : d < (G.nodes.map (degree G)).foldl max 0 + 1
    · rw [if_pos hd]
      exact hwf.nodup.filter _
    · rw [if_neg hd]
      exact List.nodup_nil
  · intro d hd
    rw [hgetD d]
    have hmin : ∀ v ∈ G.nodes, (topoInit G).minDegree ≤ degree G v := by
      intro v hv
      have hvmem : degree G v ∈ G.nodes.map (degree G) :=
        List.mem_map_of_mem _ hv
      revert hvmem
      show degree G v ∈ G.nodes.map (degree G) →
        (match G.nodes.map (degree G) with
          | [] => 0
          | d :: ds => ds.foldl min d) ≤ degree G v
      rcases G.nodes.map (degree G) with - | ⟨d0, ds⟩
      · intro hvmem
        cases hvmem
      · intro hvmem
        rcases List.mem_cons.mp hvmem with h' | h'
        · exact le_of_le_of_eq (foldl_min_le_init ds d0) h'.symm
        · exact foldl_min_le_of_mem ds d0 _ h'
    by_cases hd2 : d < (G.nodes.map (degree G)).foldl max 0 + 1
    · rw [if_pos hd2, List.filter_eq_nil_iff]
      intro v hv
      simp only [decide_eq_true_eq]
      intro he
      have := hmin v hv
      omega
    · rw [if_neg hd2]
  · intro a b
    rw [hproj_edges, hproj_order]
    simp
  · rw [hproj_edges]
    exact List.nodup_nil
  · intro a
    rw [hproj_edges]
    simp [degeneracy]

end GRAIP

namespace GRAIP

/-- Helper: the loop invariant holds after any number of iterations up to
the node count, with one vertex removed per iteration. -/
theorem topoIter_inv (G : Graph) (hwf : G.Wf) :
    ∀ k, k ≤ G.nodes.length →
      TOInv G (topoStep^[k] (topoInit G)) ∧
        (topoStep^[k] (topoInit G)).order.length = k := by
  intro k
  induction k with
  | zero =>
    intro _
    exact ⟨topoInit_inv G hwf, rfl⟩
  | succ j ih =>
    intro hk
    obtain ⟨hinv, hlen⟩ := ih (by omega)
    have hrem : ∃ v, v ∈ G.nodes ∧ v ∉ (topoStep^[j] (topoInit G)).order := by
      by_contra hc
      push_neg at hc
      have hsub : G.nodes ⊆ (topoStep^[j] (topoInit G)).order :=
        fun v hv => hc v hv
      have hsp := List.subperm_of_subset hwf.nodup hsub
      have hle := hsp.length_le
      omega
    have hstep := topoStep_inv G hwf _ hinv hrem
    have hit : topoStep^[j + 1] (topoInit G)
        = topoStep (topoStep^[j] (topoInit G)) :=
      Function.iterate_succ_apply' topoStep j (topoInit G)
    rw [hit]
    exact ⟨hstep.1, by rw [hstep.2, hlen]⟩

/-- C6: on every well-formed non-empty graph, `topological_ordering`
returns a directed graph on the same nodes (the removal order is a
permutation of the nodes, and the edge list only mentions them) in which
each undirected edge of `G` appears exactly once (the edge list has no
duplicates and contains, of each adjacent pair, exactly the orientation
from the endpoint removed earlier to the one removed later); the rank
characterisation makes the digraph acyclic and the out-neighbours of every
vertex exactly its higher-ranked neighbours; and every out-degree is at
most the degeneracy of `G`. -/
theorem topological_ordering_spec (G : Graph) (hwf : G.Wf)
    (hne : G.nodes ≠ []) :
    (topological_ordering G).1.Perm G.nodes ∧
    (topological_ordering G).2.Nodup ∧
    (∀ a b : ℕ, ((a, b) ∈ (topological_ordering G).2 ↔
      (G.adj a b = true ∧
        rankIn (topological_ordering G).1 a
          < rankIn (topological_ordering G).1 b))) ∧
    (∀ v : ℕ, ((topological_ordering G).2.filter
      (fun e => decide (e.1 = v))).length ≤ degeneracy G) := by
  obtain ⟨hinv, hlen⟩ := topoIter_inv G hwf G.nodes.length (le_refl _)
  set final := topoStep^[G.nodes.length] (topoInit G) with hfdef
  have h1 : (topological_ordering G).1 = final.order := rfl
  have h2 : (topological_ordering G).2 = final.dagEdges := rfl
  have hperm : final.order.Perm G.nodes := by
    apply List.Subperm.perm_of_length_le
    · exact List.subperm_of_subset hinv.nodup (fun v hv => hinv.sub v hv)
    · omega
  have hall : ∀ v ∈ G.nodes, v ∈ final.order :=
    fun v hv => hperm.mem_iff.mpr hv
  rw [h1, h2]
  refine ⟨hperm, hinv.edges_nodup, ?_, hinv.outdeg_le⟩
  intro a b
  rw [hinv.edges_iff a b]
  constructor
  · rintro ⟨hadj, hamem, hrank⟩
    exact ⟨hadj, hrank (hall b (hwf.adj_mem a b hadj).2)⟩
  · rintro ⟨hadj, hrank⟩
    exact ⟨hadj, hall a (hwf.adj_mem a b hadj).1, fun _ => hrank⟩

end GRAIP

namespace GRAIP

/-- C6 (witness): the specification applied to the concrete path graph
`0 - 1 - 2`. -/
theorem topological_ordering_spec_witness :
    ((mkGraph [0, 1, 2] [(0, 1), (1, 2)]).Wf ∧
      (mkGraph [0, 1, 2] [(0, 1), (1, 2)]).nodes ≠ []) ∧
    ((topological_ordering (mkGraph [0, 1, 2] [(0, 1), (1, 2)])).1.Perm
        (mkGraph [0, 1, 2] [(0, 1), (1, 2)]).nodes ∧
      (topological_ordering (mkGraph [0, 1, 2] [(0, 1), (1, 2)])).2.Nodup ∧
      (∀ a b : ℕ,
        ((a, b) ∈ (topological_ordering (mkGraph [0, 1, 2] [(0, 1), (1, 2)])).2 ↔
          ((mkGraph [0, 1, 2] [(0, 1), (1, 2)]).adj a b = true ∧
            rankIn (topological_ordering (mkGraph [0, 1, 2] [(0, 1), (1, 2)])).1 a
              < rankIn (topological_ordering
                  (mkGraph [0, 1, 2] [(0, 1), (1, 2)])).1 b))) ∧
      (∀ v : ℕ,
        ((topological_ordering (mkGraph [0, 1, 2] [(0, 1), (1, 2)])).2.filter
          (fun e => decide (e.1 = v))).length
            ≤ degeneracy (mkGraph [0, 1, 2] [(0, 1), (1, 2)]))) := by
  have hwf : (mkGraph [0, 1, 2] [(0, 1), (1, 2)]).Wf := by
    apply mkGraph_wf <;> decide
  exact ⟨⟨hwf, by decide⟩,
    topological_ordering_spec (mkGraph [0, 1, 2] [(0, 1), (1, 2)]) hwf
      (by decide)⟩

end GRAIP
